import Mathlib

/-!
Verification of the JobMonitor aggregation core (append-only status store,
uptime/missing-slot calculator, timeline builder, cluster aggregator,
overview selector) against its Go sources.

Embedding conventions:
* `time.Time` and `time.Duration` are modelled as `Int` nanoseconds
  (`t.Before u` is `t < u`, `t.Sub u` is `t - u`, the zero time is `0`).
* Go maps used by the code are modelled as association lists with the same
  lookup/update semantics; wherever the code sorts the keys (or the output)
  before producing results, iteration order of the map is irrelevant.
* Go's `sort` package calls are modelled by a stable insertion sort
  (`goSortBy`); the code sorts keys that are distinct, or values where the
  order of ties is unobservable, so this is faithful.
* `float64` percentages are modelled exactly in `ℚ`; on the magnitudes the
  program manipulates (small integer counts) Go's float64 arithmetic is
  exact, and `math.Ceil`/`math.Round` become the exact rational operations.
* Filesystem and network effects are oracles passed in as parameters: the
  persist step of the store is a function returning an optional error, a
  peer fetch is a function returning `Except String PeerSnapshot`.
-/

namespace JobMonitor

/-- Nanoseconds in one Go `time.Minute`. -/
def minuteNs : Int := 60 * 1000000000

/-- Nanoseconds in one Go `time.Hour`. -/
def hourNs : Int := 60 * minuteNs

/-- Go `strings.ToLower`, character by character (the states and names the
program compares are ASCII, where Go's Unicode lowering agrees with
`Char.toLower`). -/
def lowerStr (s : String) : String := ⟨s.data.map Char.toLower⟩

/-- Stable insertion of `x` into `l`: `x` goes after every `y` with `le y x`.
Models the ordering produced by Go's `sort` package for a `less` comparator
when `le y x := !(less x y)`. -/
def insertLe (le : α → α → Bool) (x : α) : List α → List α
  | [] => [x]
  | y :: ys => if le y x then y :: insertLe le x ys else x :: y :: ys

/-- Stable sort by `le` (insertion sort, folding from the left). -/
def goSortBy (le : α → α → Bool) (l : List α) : List α :=
  l.foldl (fun acc x => insertLe le x acc) []

theorem insertLe_perm (le : α → α → Bool) (x : α) (l : List α) :
    (insertLe le x l).Perm (x :: l) := by
  induction l with
  | nil => simp [insertLe]
  | cons y ys ih =>
      simp only [insertLe]
      split
      · exact ((ih.cons y).trans (List.Perm.swap x y ys))
      · exact List.Perm.refl _

theorem goSortBy_foldl_perm (le : α → α → Bool) :
    ∀ (l acc : List α), (l.foldl (fun acc x => insertLe le x acc) acc).Perm (acc ++ l) := by
  intro l
  induction l with
  | nil => intro acc; simp
  | cons x xs ih =>
      intro acc
      have h1 := ih (insertLe le x acc)
      have h2 : (insertLe le x acc ++ xs).Perm (acc ++ x :: xs) := by
        have ha : (insertLe le x acc ++ xs).Perm ((x :: acc) ++ xs) :=
          (insertLe_perm le x acc).append_right xs
        have hb : ((x :: acc) ++ xs).Perm (acc ++ x :: xs) := by
          simpa using (@List.perm_middle _ x acc xs).symm
        exact ha.trans hb
      exact h1.trans h2

theorem goSortBy_perm (le : α → α → Bool) (l : List α) :
    (goSortBy le l).Perm l := by
  simpa [goSortBy] using goSortBy_foldl_perm le l []

theorem mem_goSortBy (le : α → α → Bool) (l : List α) (a : α) :
    a ∈ goSortBy le l ↔ a ∈ l :=
  (goSortBy_perm le l).mem_iff

/-! ## Data model (`internal/models`) -/

/-- Go `models.CheckResult`. -/
structure CheckResult where
  id : String
  name : String
  ok : Bool
  state : String
  error : Option String
  deriving Repr, DecidableEq

/-- Go `models.StatusEntry`. -/
structure StatusEntry where
  timestamp : Int
  checks : List CheckResult
  deriving Repr, DecidableEq

/-- Go `models.Target` (probe-specific fields omitted: the aggregation core
reads only `ID` and `Name`). -/
structure Target where
  id : String
  name : String
  deriving Repr, DecidableEq

/-- Go `models.ConnectivityStatus`. -/
structure ConnectivityStatus where
  target : String
  ok : Bool
  latencyMs : Int
  error : String
  checkedAt : Int
  deriving Repr, DecidableEq

/-- Go `models.TimelineDetail`. -/
structure TimelineDetail where
  timestamp : Int
  state : String
  error : String
  deriving Repr, DecidableEq

/-- Go `models.TimelinePoint`. The JSON field `className` is the
classification. -/
structure TimelinePoint where
  className : String
  label : String
  start : Int
  stop : Int
  details : List TimelineDetail
  deriving Repr, DecidableEq

/-- Go `models.ServiceTimeline`. -/
structure ServiceTimeline where
  serviceID : String
  serviceName : String
  timeline : List TimelinePoint
  deriving Repr, DecidableEq

/-! ## Uptime calculator (`internal/metrics/uptime.go`) -/

/-- Go `metrics.ServiceUptime`. `lastUpdated` keeps the raw time instead of
the RFC3339 rendering. -/
structure ServiceUptime where
  id : String
  name : String
  uptimePercent : ℚ
  totalChecks : Nat
  passing : Nat
  failing : Nat
  missing : Nat
  lastState : String
  lastUpdated : Option Int
  deriving Repr, DecidableEq

/-- The per-target accumulator `acc` local to `ComputeServiceUptime`. -/
structure Acc where
  name : String
  passing : Nat
  failing : Nat
  lastState : String
  lastTime : Option Int
  deriving Repr, DecidableEq

/-- A fresh accumulator, `&acc{name: name}`. -/
def freshAcc (name : String) : Acc := ⟨name, 0, 0, "", none⟩

/-- Go map assignment `m[id] = a` on the association-list model. -/
def setKey {β : Type} (m : List (String × β)) (id : String) (a : β) : List (String × β) :=
  match m with
  | [] => [(id, a)]
  | (k, v) :: rest => if k = id then (k, a) :: rest else (k, v) :: setKey rest id a

/-- Update the accumulator at `id`, creating `dflt` first when absent
(the `if target == nil` branch of `ComputeServiceUptime`). -/
def insertWith (m : List (String × Acc)) (id : String) (dflt : Acc) (f : Acc → Acc) :
    List (String × Acc) :=
  match m with
  | [] => [(id, f dflt)]
  | (k, v) :: rest => if k = id then (k, f v) :: rest else (k, v) :: insertWith rest id dflt f

/-- One check applied to its accumulator: bump passing/failing, record the
last non-empty state together with the entry timestamp. -/
def applyCheck (ts : Int) (c : CheckResult) (a : Acc) : Acc :=
  let a := if c.ok then { a with passing := a.passing + 1 }
           else { a with failing := a.failing + 1 }
  if c.state ≠ "" then { a with lastState := c.state, lastTime := some ts } else a

/-- Processing of one check inside the entry loop of `ComputeServiceUptime`. -/
def processCheck (m : List (String × Acc)) (ts : Int) (c : CheckResult) :
    List (String × Acc) :=
  insertWith m c.id (freshAcc c.name) (applyCheck ts c)

/-- Processing of one `StatusEntry`. -/
def processEntry (m : List (String × Acc)) (e : StatusEntry) : List (String × Acc) :=
  e.checks.foldl (fun m c => processCheck m e.timestamp c) m

/-- The full entry loop. -/
def processEntries (m : List (String × Acc)) (entries : List StatusEntry) :
    List (String × Acc) :=
  entries.foldl processEntry m

/-- Seeding of the summary map from the expected target list. -/
def seedTargets (targets : List Target) : List (String × Acc) :=
  targets.foldl (fun m t => setKey m t.id (freshAcc t.name)) []

/-- Go `int(math.Ceil(float64(duration) / float64(interval)))`, exact: the
least number of interval-length slots covering the duration. -/
def ceilSlots (duration interval : Int) : Nat :=
  (duration.toNat + interval.toNat - 1) / interval.toNat

/-- The expected-slot computation of `ComputeServiceUptime` (lines 76-87):
zero when `interval ≤ 0`, otherwise the ceiling of `duration / interval`
clamped below by the number of observed entries. Expects `end_` already
clamped to `≥ start`. -/
def expectedSlots (entries : List StatusEntry) (start end_ interval : Int) : Nat :=
  if 0 < interval then
    let duration := end_ - start
    let duration := if duration < 0 then 0 else duration
    let slots := ceilSlots duration interval
    if slots < entries.length then entries.length else slots
  else 0

/-- The missing-slot count (lines 89-92): `expectedSlots - observedEntries`
when positive, else zero. -/
def missingSlots (entries : List StatusEntry) (start end_ interval : Int) : Nat :=
  let es := expectedSlots entries start end_ interval
  if entries.length < es then es - entries.length else 0

/-- Go `math.Round` (half away from zero) on the exact rational value. -/
def goRound (v : ℚ) : ℚ :=
  if v < 0 then -(⌊-v + 1/2⌋ : ℤ) else ((⌊v + 1/2⌋ : ℤ) : ℚ)

/-- Go `round2`. -/
def round2 (v : ℚ) : ℚ := goRound (v * 100) / 100

/-- One output row of `ComputeServiceUptime` (lines 101-124): the global
missing-slot count is added to the row's failing count before totals and
the percentage are formed. -/
def mkRow (missing : Nat) (id : String) (a : Acc) : ServiceUptime :=
  let failing := a.failing + missing
  let total := a.passing + failing
  let uptime : ℚ := if 0 < total then (a.passing : ℚ) / (total : ℚ) * 100 else 0
  { id := id, name := a.name, uptimePercent := round2 uptime, totalChecks := total,
    passing := a.passing, failing := failing, missing := missing,
    lastState := a.lastState, lastUpdated := a.lastTime }

/-- Comparator of Go `sort.Strings`. -/
def strLe (a b : String) : Bool := !(decide (b < a))

/-- Go `metrics.ComputeServiceUptime`. -/
def ComputeServiceUptime (entries : List StatusEntry) (start end_ interval : Int)
    (expectedTargets : List Target) : List ServiceUptime :=
  let end2 := if end_ < start then start else end_
  let summary := processEntries (seedTargets expectedTargets) entries
  if summary = [] then []
  else
    let m := missingSlots entries start end2 interval
    let keys := goSortBy strLe (summary.map Prod.fst)
    keys.map (fun id => mkRow m id ((List.lookup id summary).getD (freshAcc "")))

/-! ### Counting samples per target -/

/-- Number of in-window checks carrying `id` that passed. -/
def passCount (id : String) (entries : List StatusEntry) : Nat :=
  (entries.map (fun e => e.checks.countP (fun c => decide (c.id = id) && c.ok))).sum

/-- Number of in-window checks carrying `id` that failed. -/
def failCount (id : String) (entries : List StatusEntry) : Nat :=
  (entries.map (fun e => e.checks.countP (fun c => decide (c.id = id) && !c.ok))).sum

/-- Number of in-window checks carrying `id`. -/
def checkCount (id : String) (entries : List StatusEntry) : Nat :=
  (entries.map (fun e => e.checks.countP (fun c => decide (c.id = id)))).sum

theorem checkCount_eq_pass_add_fail (id : String) (entries : List StatusEntry) :
    checkCount id entries = passCount id entries + failCount id entries := by
  unfold checkCount passCount failCount
  induction entries with
  | nil => simp
  | cons e es ih =>
      simp only [List.map_cons, List.sum_cons, ih]
      have h : e.checks.countP (fun c => decide (c.id = id)) =
          e.checks.countP (fun c => decide (c.id = id) && c.ok) +
          e.checks.countP (fun c => decide (c.id = id) && !c.ok) := by
        induction e.checks with
        | nil => simp
        | cons c cs ihc =>
            simp only [List.countP_cons]
            cases hok : c.ok <;> cases hid : decide (c.id = id) <;> simp [ihc] <;> omega
      omega

/-- The passing count recorded in the summary map at `id` (0 when absent). -/
def accPass (m : List (String × Acc)) (id : String) : Nat :=
  ((List.lookup id m).map Acc.passing).getD 0

/-- The failing count recorded in the summary map at `id` (0 when absent). -/
def accFail (m : List (String × Acc)) (id : String) : Nat :=
  ((List.lookup id m).map Acc.failing).getD 0

theorem lookup_cons_pair {β : Type} (id k : String) (v : β) (rest : List (String × β)) :
    List.lookup id ((k, v) :: rest) = if id = k then some v else List.lookup id rest := by
  by_cases h : id = k
  · subst h; simp [List.lookup]
  · simp [List.lookup, beq_false_of_ne h, h]

theorem lookup_setKey_self {β : Type} (m : List (String × β)) (id : String) (a : β) :
    List.lookup id (setKey m id a) = some a := by
  induction m with
  | nil => simp [setKey, lookup_cons_pair]
  | cons kv rest ih =>
      obtain ⟨k, v⟩ := kv
      by_cases h : k = id
      · subst h; simp [setKey, lookup_cons_pair]
      · simp [setKey, h, lookup_cons_pair, Ne.symm h, ih]

theorem lookup_setKey_ne {β : Type} (m : List (String × β)) (id id' : String) (a : β)
    (h : id' ≠ id) : List.lookup id' (setKey m id a) = List.lookup id' m := by
  induction m with
  | nil => simp [setKey, List.lookup, beq_false_of_ne h]
  | cons kv rest ih =>
      obtain ⟨k, v⟩ := kv
      by_cases hk : k = id
      · subst hk; simp [setKey, lookup_cons_pair, h]
      · by_cases hk' : id' = k <;> simp [setKey, hk, lookup_cons_pair, hk', ih]

theorem lookup_insertWith_self (m : List (String × Acc)) (id : String) (d : Acc)
    (f : Acc → Acc) :
    List.lookup id (insertWith m id d f) = some (f ((List.lookup id m).getD d)) := by
  induction m with
  | nil => simp [insertWith, lookup_cons_pair, List.lookup]
  | cons kv rest ih =>
      obtain ⟨k, v⟩ := kv
      by_cases h : k = id
      · subst h; simp [insertWith, lookup_cons_pair]
      · simp [insertWith, h, lookup_cons_pair, Ne.symm h, ih]

theorem lookup_insertWith_ne (m : List (String × Acc)) (id id' : String) (d : Acc)
    (f : Acc → Acc) (h : id' ≠ id) :
    List.lookup id' (insertWith m id d f) = List.lookup id' m := by
  induction m with
  | nil => simp [insertWith, List.lookup, beq_false_of_ne h]
  | cons kv rest ih =>
      obtain ⟨k, v⟩ := kv
      by_cases hk : k = id
      · subst hk; simp [insertWith, lookup_cons_pair, h]
      · by_cases hk' : id' = k <;> simp [insertWith, hk, lookup_cons_pair, hk', ih]

theorem applyCheck_passing (ts : Int) (c : CheckResult) (a : Acc) :
    (applyCheck ts c a).passing = a.passing + (if c.ok then 1 else 0) := by
  unfold applyCheck
  cases c.ok <;> by_cases h : c.state ≠ "" <;> simp [h]

theorem applyCheck_failing (ts : Int) (c : CheckResult) (a : Acc) :
    (applyCheck ts c a).failing = a.failing + (if c.ok then 0 else 1) := by
  unfold applyCheck
  cases c.ok <;> by_cases h : c.state ≠ "" <;> simp [h]

theorem accPass_processCheck (m : List (String × Acc)) (ts : Int) (c : CheckResult)
    (id : String) :
    accPass (processCheck m ts c) id =
      accPass m id + (if c.id = id ∧ c.ok then 1 else 0) := by
  unfold processCheck accPass
  by_cases h : c.id = id
  · subst h
    rw [lookup_insertWith_self]
    cases hl : List.lookup c.id m with
    | none => simp [hl, applyCheck_passing, freshAcc]
    | some a => simp [hl, applyCheck_passing]
  · rw [lookup_insertWith_ne m c.id id _ _ (fun he => h he.symm)]
    simp [h]

theorem accFail_processCheck (m : List (String × Acc)) (ts : Int) (c : CheckResult)
    (id : String) :
    accFail (processCheck m ts c) id =
      accFail m id + (if c.id = id ∧ c.ok = false then 1 else 0) := by
  unfold processCheck accFail
  by_cases h : c.id = id
  · subst h
    rw [lookup_insertWith_self]
    cases hl : List.lookup c.id m with
    | none => cases hok : c.ok <;> simp [hl, applyCheck_failing, freshAcc, hok]
    | some a => cases hok : c.ok <;> simp [hl, applyCheck_failing, hok]
  · rw [lookup_insertWith_ne m c.id id _ _ (fun he => h he.symm)]
    simp [h]

theorem accPass_processEntry (m : List (String × Acc)) (e : StatusEntry) (id : String) :
    accPass (processEntry m e) id =
      accPass m id + e.checks.countP (fun c => decide (c.id = id) && c.ok) := by
  unfold processEntry
  induction e.checks generalizing m with
  | nil => simp
  | cons c cs ih =>
      simp only [List.foldl_cons, List.countP_cons, ih, accPass_processCheck]
      cases hok : c.ok <;> by_cases h : c.id = id <;> simp [h, hok] <;> omega

theorem accFail_processEntry (m : List (String × Acc)) (e : StatusEntry) (id : String) :
    accFail (processEntry m e) id =
      accFail m id + e.checks.countP (fun c => decide (c.id = id) && !c.ok) := by
  unfold processEntry
  induction e.checks generalizing m with
  | nil => simp
  | cons c cs ih =>
      simp only [List.foldl_cons, List.countP_cons, ih, accFail_processCheck]
      cases hok : c.ok <;> by_cases h : c.id = id <;> simp [h, hok] <;> omega

theorem accPass_processEntries (m : List (String × Acc)) (entries : List StatusEntry)
    (id : String) :
    accPass (processEntries m entries) id = accPass m id + passCount id entries := by
  unfold processEntries passCount
  induction entries generalizing m with
  | nil => simp
  | cons e es ih =>
      simp only [List.foldl_cons, List.map_cons, List.sum_cons, ih, accPass_processEntry]
      omega

theorem accFail_processEntries (m : List (String × Acc)) (entries : List StatusEntry)
    (id : String) :
    accFail (processEntries m entries) id = accFail m id + failCount id entries := by
  unfold processEntries failCount
  induction entries generalizing m with
  | nil => simp
  | cons e es ih =>
      simp only [List.foldl_cons, List.map_cons, List.sum_cons, ih, accFail_processEntry]
      omega

theorem seed_lookup_zero (targets : List Target) :
    ∀ id x, List.lookup id (seedTargets targets) = some x →
      x.passing = 0 ∧ x.failing = 0 := by
  unfold seedTargets
  suffices h : ∀ (ts : List Target) (m : List (String × Acc)),
      (∀ id x, List.lookup id m = some x → x.passing = 0 ∧ x.failing = 0) →
      ∀ id x, List.lookup id (ts.foldl (fun m t => setKey m t.id (freshAcc t.name)) m) = some x →
        x.passing = 0 ∧ x.failing = 0 by
    exact h targets [] (by simp [List.lookup])
  intro ts
  induction ts with
  | nil => intro m hm id x hx; exact hm id x hx
  | cons t ts ih =>
      intro m hm id x hx
      refine ih _ ?_ id x hx
      intro id' x' hx'
      by_cases h : id' = t.id
      · subst h
        rw [lookup_setKey_self] at hx'
        cases hx'
        simp [freshAcc]
      · rw [lookup_setKey_ne _ _ _ _ h] at hx'
        exact hm id' x' hx'

theorem accPass_seed (targets : List Target) (id : String) :
    accPass (seedTargets targets) id = 0 := by
  unfold accPass
  cases hl : List.lookup id (seedTargets targets) with
  | none => simp
  | some a => simp [(seed_lookup_zero targets id a hl).1]

theorem accFail_seed (targets : List Target) (id : String) :
    accFail (seedTargets targets) id = 0 := by
  unfold accFail
  cases hl : List.lookup id (seedTargets targets) with
  | none => simp
  | some a => simp [(seed_lookup_zero targets id a hl).2]

theorem lookup_isSome_of_mem_fst {β : Type} (m : List (String × β)) (id : String)
    (h : id ∈ m.map Prod.fst) : ∃ a : β, List.lookup id m = some a := by
  induction m with
  | nil => simp at h
  | cons kv rest ih =>
      obtain ⟨k, v⟩ := kv
      rcases List.mem_cons.mp h with h1 | h2
      · exact ⟨v, by simp [List.lookup, h1]⟩
      · by_cases hk : id = k
        · exact ⟨v, by simp [List.lookup, hk]⟩
        · obtain ⟨a, ha⟩ := ih h2
          exact ⟨a, by simp [List.lookup, beq_false_of_ne hk, ha]⟩

theorem mem_ComputeServiceUptime (entries : List StatusEntry) (start end_ interval : Int)
    (targets : List Target) (row : ServiceUptime)
    (hrow : row ∈ ComputeServiceUptime entries start end_ interval targets) :
    ∃ id a, List.lookup id (processEntries (seedTargets targets) entries) = some a ∧
      row = mkRow (missingSlots entries start (if end_ < start then start else end_) interval)
        id a := by
  simp only [ComputeServiceUptime] at hrow
  split at hrow
  · simp at hrow
  · rcases List.mem_map.mp hrow with ⟨id, hid, hmk⟩
    rw [mem_goSortBy] at hid
    obtain ⟨a, ha⟩ := lookup_isSome_of_mem_fst _ _ hid
    refine ⟨id, a, ha, ?_⟩
    rw [← hmk, ha]
    rfl

theorem accPass_eq (targets : List Target) (entries : List StatusEntry) (id : String)
    (a : Acc) (ha : List.lookup id (processEntries (seedTargets targets) entries) = some a) :
    a.passing = passCount id entries ∧ a.failing = failCount id entries := by
  have hp := accPass_processEntries (seedTargets targets) entries id
  have hf := accFail_processEntries (seedTargets targets) entries id
  rw [accPass_seed, accFail_seed] at *
  simp only [accPass, accFail, ha, Option.map_some', Option.getD_some] at hp hf
  omega

/-- C1: every row of `ComputeServiceUptime` reports the one global
missing-slot count, that count is added to the row's failing count, and
passing + failing equals the target's in-window check count plus the global
missing count. -/
theorem C1_uptime_global_missing (entries : List StatusEntry) (start end_ interval : Int)
    (targets : List Target) (row : ServiceUptime)
    (hrow : row ∈ ComputeServiceUptime entries start end_ interval targets) :
    row.missing = missingSlots entries start (if end_ < start then start else end_) interval ∧
    row.failing = failCount row.id entries + row.missing ∧
    row.passing + row.failing = checkCount row.id entries + row.missing := by
  obtain ⟨id, a, ha, hr⟩ :=
    mem_ComputeServiceUptime entries start end_ interval targets row hrow
  obtain ⟨hpa, hfa⟩ := accPass_eq targets entries id a ha
  subst hr
  have hcc := checkCount_eq_pass_add_fail id entries
  simp only [mkRow]
  exact ⟨trivial, by omega, by omega⟩

/-- A one-entry history used to instantiate C1. -/
def c1entries : List StatusEntry := [⟨0, [⟨"a", "A", true, "active", none⟩]⟩]

/-- The row `ComputeServiceUptime` produces for `c1entries`. -/
def c1row : ServiceUptime := mkRow 0 "a" ⟨"A", 1, 0, "active", some 0⟩

theorem C1_uptime_global_missing_witness :
    c1row.missing = missingSlots c1entries 0 (if (0 : Int) < 0 then 0 else 0) 0 ∧
    c1row.failing = failCount c1row.id c1entries + c1row.missing ∧
    c1row.passing + c1row.failing = checkCount c1row.id c1entries + c1row.missing :=
  C1_uptime_global_missing c1entries 0 0 0 [] c1row (List.Mem.head _)

theorem ceilSlots_eq_ceil (d i : Nat) (hi : 0 < i) :
    (d + i - 1) / i = ⌈(d : ℚ) / (i : ℚ)⌉₊ := by
  refine (eq_of_forall_ge_iff (fun c => ?_)).symm
  rw [Nat.ceil_le, div_le_iff₀ (by exact_mod_cast hi), Nat.div_le_iff_le_mul_add_pred hi]
  have h2 : ((d : ℚ) ≤ (c : ℚ) * (i : ℚ)) ↔ d ≤ c * i := by
    rw [← Nat.cast_mul, Nat.cast_le]
  rw [h2, Nat.mul_comm c i]
  omega

/-- Scenario-B check: one passing probe of service `svc`. -/
def sbCheck : CheckResult := ⟨"svc", "Service", true, "active", none⟩

/-- Scenario-B history: all-ok entries at T, T+5m, T+10m. -/
def sbEntries : List StatusEntry :=
  [⟨0, [sbCheck]⟩, ⟨5 * minuteNs, [sbCheck]⟩, ⟨10 * minuteNs, [sbCheck]⟩]

theorem sb_result :
    ComputeServiceUptime sbEntries 0 (20 * minuteNs) (5 * minuteNs) [] =
      [mkRow 1 "svc" ⟨"Service", 3, 0, "active", some (10 * minuteNs)⟩] := by
  rfl

/-- C2: with a positive interval the expected slot count is the rational
ceiling of duration/interval clamped below by the observed entry count,
`missing = max(0, expected - observed)`, a non-positive interval yields
missing 0, and Scenario B (window [T, T+20m], interval 5m, three all-ok
entries) yields expected 4, missing 1, failing 1 and uptime 75.0. -/
theorem C2_expected_slots (entries : List StatusEntry) (start end_ interval : Int) :
    (0 < interval →
      expectedSlots entries start end_ interval =
        max (⌈(((if end_ - start < 0 then 0 else end_ - start).toNat : ℚ)) /
              ((interval.toNat : ℚ))⌉₊) entries.length) ∧
    ((missingSlots entries start end_ interval : ℤ) =
      max ((expectedSlots entries start end_ interval : ℤ) - entries.length) 0) ∧
    (interval ≤ 0 → missingSlots entries start end_ interval = 0) ∧
    expectedSlots sbEntries 0 (20 * minuteNs) (5 * minuteNs) = 4 ∧
    missingSlots sbEntries 0 (20 * minuteNs) (5 * minuteNs) = 1 ∧
    (ComputeServiceUptime sbEntries 0 (20 * minuteNs) (5 * minuteNs) []).map
      ServiceUptime.failing = [1] ∧
    (ComputeServiceUptime sbEntries 0 (20 * minuteNs) (5 * minuteNs) []).map
      ServiceUptime.uptimePercent = [75] := by
  refine ⟨?_, ?_, ?_, by decide, by decide, ?_, ?_⟩
  · intro hint
    simp only [expectedSlots, ceilSlots, if_pos hint]
    rw [ceilSlots_eq_ceil _ _ (by omega)]
    split <;> split <;> omega
  · simp only [missingSlots]
    split <;> omega
  · intro hint
    simp [missingSlots, expectedSlots, if_neg (not_lt.mpr hint)]
  · rw [sb_result]
    simp [mkRow]
  · rw [sb_result]
    simp only [List.map_cons, List.map_nil, mkRow]
    norm_num [round2, goRound]

theorem C2_expected_slots_witness :
    expectedSlots sbEntries 0 (20 * minuteNs) (5 * minuteNs) =
      max (⌈(((if (20 * minuteNs : Int) - 0 < 0 then 0 else 20 * minuteNs - 0).toNat : ℚ)) /
            (((5 * minuteNs : Int).toNat : ℚ))⌉₊) sbEntries.length ∧
    missingSlots sbEntries 0 (20 * minuteNs) 0 = 0 :=
  ⟨(C2_expected_slots sbEntries 0 (20 * minuteNs) (5 * minuteNs)).1 (by decide),
   (C2_expected_slots sbEntries 0 (20 * minuteNs) 0).2.2.1 (by decide)⟩

/-! ## Timeline builder (`internal/history/timeline.go`) -/

/-- Number of visual buckets generated per service by default. -/
def DefaultTimelinePoints : Nat := 80

/-- Cap on drill-down detail records per bucket. -/
def maxDetailsPerPoint : Nat := 4

/-- The `warningStates` set. -/
def warningStates : List String := ["activating", "deactivating", "reloading", "maintenance"]

/-- Go `isWarningState`. -/
def isWarningState (state : String) : Bool := warningStates.contains state

/-- The per-check `sample` record of the timeline builder. -/
structure Sample where
  timestamp : Int
  ok : Bool
  state : String
  error : String
  deriving Repr, DecidableEq

/-- Go `appendDetail`: record a triggering sample, capped at 4 per bucket. -/
def appendDetail (details : List TimelineDetail) (entry : Sample) : List TimelineDetail :=
  if maxDetailsPerPoint ≤ details.length then details
  else details ++ [⟨entry.timestamp, entry.state, entry.error⟩]

/-- The mutable flags of `evaluateBucket`'s sample loop. -/
structure BucketFlags where
  hasError : Bool
  hasWarning : Bool
  hasSuccess : Bool
  hasMissing : Bool
  details : List TimelineDetail
  deriving Repr, DecidableEq

/-- One iteration of `evaluateBucket`'s sample loop (lines 185-209). -/
def classifyStep (f : BucketFlags) (entry : Sample) : BucketFlags :=
  let state := lowerStr entry.state
  let errorState := !entry.ok &&
    (state == "inactive" || state == "failed" || state == "degraded" ||
      (state == "" && entry.error != ""))
  if errorState then
    { f with hasError := true, details := appendDetail f.details entry }
  else if entry.ok || state == "active" || state == "running" then
    { f with hasSuccess := true }
  else if state == "missing" then
    { f with hasMissing := true }
  else if isWarningState state then
    { f with hasWarning := true, details := appendDetail f.details entry }
  else if state == "" || state == "unknown" then
    { f with hasMissing := true }
  else if entry.ok then
    { f with hasSuccess := true }
  else
    { f with hasError := true, details := appendDetail f.details entry }

/-- All-false flags with no details, the loop's starting state. -/
def initFlags : BucketFlags := ⟨false, false, false, false, []⟩

/-- A sample is ERROR-classified when the loop would set `hasError` on it. -/
def isErrorSample (e : Sample) : Bool := (classifyStep initFlags e).hasError

/-- A sample is MISSING-classified when the loop would set `hasMissing` on it. -/
def isMissingSample (e : Sample) : Bool := (classifyStep initFlags e).hasMissing

/-- A sample is WARNING-classified when the loop would set `hasWarning` on it. -/
def isWarningSample (e : Sample) : Bool := (classifyStep initFlags e).hasWarning

/-- A sample is SUCCESS-classified when the loop would set `hasSuccess` on it. -/
def isSuccessSample (e : Sample) : Bool := (classifyStep initFlags e).hasSuccess

/-- Go `evaluateBucket`: classification, label and details of one bucket. -/
def evaluateBucket (entries : List Sample) : String × String × List TimelineDetail :=
  if entries.length = 0 then ("state-missing", "No data", [])
  else
    let f := entries.foldl classifyStep initFlags
    if f.hasError then ("state-error", "Unavailable", f.details)
    else if f.hasMissing then ("state-missing", "No data", f.details)
    else if f.hasWarning then ("state-warning", "Transitioning", f.details)
    else if f.hasSuccess then ("state-success", "Operational", [])
    else ("state-missing", "No data", f.details)

theorem classifyStep_hasError (f : BucketFlags) (e : Sample) :
    (classifyStep f e).hasError = (f.hasError || isErrorSample e) := by
  simp only [isErrorSample, classifyStep, initFlags]
  split_ifs <;> simp

theorem classifyStep_hasMissing (f : BucketFlags) (e : Sample) :
    (classifyStep f e).hasMissing = (f.hasMissing || isMissingSample e) := by
  simp only [isMissingSample, classifyStep, initFlags]
  split_ifs <;> simp

theorem classifyStep_hasWarning (f : BucketFlags) (e : Sample) :
    (classifyStep f e).hasWarning = (f.hasWarning || isWarningSample e) := by
  simp only [isWarningSample, classifyStep, initFlags]
  split_ifs <;> simp

theorem classifyStep_hasSuccess (f : BucketFlags) (e : Sample) :
    (classifyStep f e).hasSuccess = (f.hasSuccess || isSuccessSample e) := by
  simp only [isSuccessSample, classifyStep, initFlags]
  split_ifs <;> simp

theorem sample_has_some_class (e : Sample) :
    (isErrorSample e || isMissingSample e || isWarningSample e || isSuccessSample e) = true := by
  simp only [isErrorSample, isMissingSample, isWarningSample, isSuccessSample, classifyStep,
    initFlags]
  split_ifs <;> simp

theorem foldl_hasError (l : List Sample) (f : BucketFlags) :
    (l.foldl classifyStep f).hasError = (f.hasError || l.any isErrorSample) := by
  induction l generalizing f with
  | nil => simp
  | cons e es ih =>
      simp only [List.foldl_cons, List.any_cons, ih, classifyStep_hasError]
      cases f.hasError <;> cases he : isErrorSample e <;> simp

theorem foldl_hasMissing (l : List Sample) (f : BucketFlags) :
    (l.foldl classifyStep f).hasMissing = (f.hasMissing || l.any isMissingSample) := by
  induction l generalizing f with
  | nil => simp
  | cons e es ih =>
      simp only [List.foldl_cons, List.any_cons, ih, classifyStep_hasMissing]
      cases f.hasMissing <;> cases he : isMissingSample e <;> simp

theorem foldl_hasWarning (l : List Sample) (f : BucketFlags) :
    (l.foldl classifyStep f).hasWarning = (f.hasWarning || l.any isWarningSample) := by
  induction l generalizing f with
  | nil => simp
  | cons e es ih =>
      simp only [List.foldl_cons, List.any_cons, ih, classifyStep_hasWarning]
      cases f.hasWarning <;> cases he : isWarningSample e <;> simp

theorem foldl_hasSuccess (l : List Sample) (f : BucketFlags) :
    (l.foldl classifyStep f).hasSuccess = (f.hasSuccess || l.any isSuccessSample) := by
  induction l generalizing f with
  | nil => simp
  | cons e es ih =>
      simp only [List.foldl_cons, List.any_cons, ih, classifyStep_hasSuccess]
      cases f.hasSuccess <;> cases he : isSuccessSample e <;> simp

/-- The explicit description of an ERROR-classified sample: a not-ok sample
whose lowered state is inactive/failed/degraded, or is empty with a non-empty
error text, or is not any recognized state. -/
def errorSampleDescribed (e : Sample) : Bool :=
  let state := lowerStr e.state
  !e.ok &&
    ((state == "inactive" || state == "failed" || state == "degraded") ||
      (state == "" && e.error != "") ||
      (!(state == "active" || state == "running") && !(state == "missing") &&
        !isWarningState state && !(state == "") && !(state == "unknown")))

theorem isErrorSample_iff_described (e : Sample) :
    isErrorSample e = errorSampleDescribed e := by
  simp only [isErrorSample, errorSampleDescribed, classifyStep, initFlags]
  split_ifs <;> cases hok : e.ok <;> (try simp_all) <;> tauto

/-- The Scenario-C bucket: one not-ok `failed` sample and two `active` ones. -/
def c3bucket : List Sample :=
  [⟨1, false, "failed", ""⟩, ⟨2, true, "active", ""⟩, ⟨3, true, "active", ""⟩]

/-- C3: one ERROR-classified sample forces the bucket to ERROR; without
errors, MISSING wins over WARNING, WARNING over SUCCESS, and an all-success
bucket is SUCCESS; ERROR-classification means exactly the described sample
shapes; Scenario C classifies ERROR with exactly one detail record. -/
theorem C3_bucket_precedence (entries : List Sample) :
    ((∃ e ∈ entries, isErrorSample e = true) →
      (evaluateBucket entries).1 = "state-error") ∧
    ((∀ e ∈ entries, isErrorSample e = false) → (∃ e ∈ entries, isMissingSample e = true) →
      (evaluateBucket entries).1 = "state-missing") ∧
    ((∀ e ∈ entries, isErrorSample e = false ∧ isMissingSample e = false) →
      (∃ e ∈ entries, isWarningSample e = true) →
      (evaluateBucket entries).1 = "state-warning") ∧
    (entries ≠ [] →
      (∀ e ∈ entries, isErrorSample e = false ∧ isMissingSample e = false ∧
        isWarningSample e = false) →
      (evaluateBucket entries).1 = "state-success") ∧
    (∀ e, isErrorSample e = errorSampleDescribed e) ∧
    (evaluateBucket c3bucket).1 = "state-error" ∧
    (evaluateBucket c3bucket).2.2.length = 1 := by
  have hlen : entries.length = 0 ↔ entries = [] := List.length_eq_zero
  refine ⟨?_, ?_, ?_, ?_, isErrorSample_iff_described, by decide, by decide⟩
  · rintro ⟨e, he, herr⟩
    have hne : entries ≠ [] := by rintro rfl; simp at he
    have hflag : (entries.foldl classifyStep initFlags).hasError = true := by
      rw [foldl_hasError]
      simp [List.any_eq_true]
      exact Or.inr ⟨e, he, herr⟩
    simp only [evaluateBucket]
    rw [if_neg (by simpa [hlen] using hne)]
    simp [hflag]
  · intro hnoerr ⟨e, he, hmiss⟩
    have hne : entries ≠ [] := by rintro rfl; simp at he
    have herrflag : (entries.foldl classifyStep initFlags).hasError = false := by
      rw [foldl_hasError]
      simp [List.any_eq_true, initFlags]
      intro x hx
      exact hnoerr x hx
    have hmissflag : (entries.foldl classifyStep initFlags).hasMissing = true := by
      rw [foldl_hasMissing]
      simp [List.any_eq_true]
      exact Or.inr ⟨e, he, hmiss⟩
    simp only [evaluateBucket]
    rw [if_neg (by simpa [hlen] using hne)]
    simp [herrflag, hmissflag]
  · intro hno ⟨e, he, hwarn⟩
    have hne : entries ≠ [] := by rintro rfl; simp at he
    have herrflag : (entries.foldl classifyStep initFlags).hasError = false := by
      rw [foldl_hasError]
      simp [List.any_eq_true, initFlags]
      intro x hx
      exact (hno x hx).1
    have hmissflag : (entries.foldl classifyStep initFlags).hasMissing = false := by
      rw [foldl_hasMissing]
      simp [List.any_eq_true, initFlags]
      intro x hx
      exact (hno x hx).2
    have hwarnflag : (entries.foldl classifyStep initFlags).hasWarning = true := by
      rw [foldl_hasWarning]
      simp [List.any_eq_true]
      exact Or.inr ⟨e, he, hwarn⟩
    simp only [evaluateBucket]
    rw [if_neg (by simpa [hlen] using hne)]
    simp [herrflag, hmissflag, hwarnflag]
  · intro hne hno
    have herrflag : (entries.foldl classifyStep initFlags).hasError = false := by
      rw [foldl_hasError]
      simp [List.any_eq_true, initFlags]
      intro x hx
      exact (hno x hx).1
    have hmissflag : (entries.foldl classifyStep initFlags).hasMissing = false := by
      rw [foldl_hasMissing]
      simp [List.any_eq_true, initFlags]
      intro x hx
      exact (hno x hx).2.1
    have hwarnflag : (entries.foldl classifyStep initFlags).hasWarning = false := by
      rw [foldl_hasWarning]
      simp [List.any_eq_true, initFlags]
      intro x hx
      exact (hno x hx).2.2
    have hsucflag : (entries.foldl classifyStep initFlags).hasSuccess = true := by
      rw [foldl_hasSuccess]
      obtain ⟨e, he⟩ := List.exists_mem_of_ne_nil entries hne
      have hsome := sample_has_some_class e
      have h1 := (hno e he).1
      have h2 := (hno e he).2.1
      have h3 := (hno e he).2.2
      simp [h1, h2, h3] at hsome
      simp [List.any_eq_true]
      exact Or.inr ⟨e, he, hsome⟩
    simp only [evaluateBucket]
    rw [if_neg (by simpa [hlen] using hne)]
    simp [herrflag, hmissflag, hwarnflag, hsucflag]

theorem C3_bucket_precedence_witness :
    (evaluateBucket c3bucket).1 = "state-error" :=
  (C3_bucket_precedence c3bucket).1 ⟨⟨1, false, "failed", ""⟩, by decide, by decide⟩

/-! ## Status store (`internal/storage`: the `StatusStorage` with a version
counter, uptime.go related doc lines 132-282) -/

/-- The in-memory state of `StatusStorage` (the on-disk path lives in the
persist oracle). -/
structure StatusStorage where
  history : List StatusEntry
  version : Nat
  deriving Repr, DecidableEq

/-- Go `StatusStorage.Append`. The durable write is an oracle receiving the
serialized series and returning `none` on success or the error text on
failure. The code appends to the in-memory series and bumps the version
first, then returns whatever `persist` returns. -/
def StatusStorage.Append (persist : List StatusEntry → Option String)
    (s : StatusStorage) (entry : StatusEntry) : StatusStorage × Option String :=
  let s2 : StatusStorage := ⟨s.history ++ [entry], s.version + 1⟩
  (s2, persist s2.history)

/-- Go `StatusStorage.Latest`: the most recent entry, if any. -/
def StatusStorage.Latest (s : StatusStorage) : Option StatusEntry :=
  s.history.getLast?

/-- Go `sort.Search`'s loop: binary search for the least index in `[i, j)`
satisfying `f`, returning `j` when none does. -/
def searchLoop (f : Nat → Bool) (i j : Nat) : Nat :=
  if h : i < j then
    let m := (i + j) / 2
    if f m then searchLoop f i m else searchLoop f (m + 1) j
  else i
termination_by j - i
decreasing_by
  · omega
  · omega

/-- Go `sort.Search(n, f)`. -/
def sortSearch (n : Nat) (f : Nat → Bool) : Nat := searchLoop f 0 n

/-- Default entry used for (always in-range) index accesses. -/
def dfltEntry : StatusEntry := ⟨0, []⟩

/-- Go `StatusStorage.HistorySince`: binary search for the first entry with
timestamp ≥ cutoff, then copy the suffix. -/
def StatusStorage.HistorySince (s : StatusStorage) (cutoff : Int) : List StatusEntry :=
  if s.history = [] then []
  else
    let idx := sortSearch s.history.length
      (fun i => !(decide ((s.history.getD i dfltEntry).timestamp < cutoff)))
    if s.history.length ≤ idx then [] else s.history.drop idx

/-- Go `StatusStorage.HistoryN`: the last `n` entries, or everything when
`n ≤ 0` or `n ≥ total`. -/
def StatusStorage.HistoryN (s : StatusStorage) (n : Int) : List StatusEntry :=
  let total := s.history.length
  if n ≤ 0 ∨ (total : Int) ≤ n then s.history
  else s.history.drop (total - n.toNat)

/-- C4 counterexample: a failing persist returns the error, yet the
in-memory series has been advanced by the failed `Append`. -/
theorem C4_counterexample :
    (StatusStorage.Append (fun _ => some "disk full") ⟨[], 0⟩ ⟨0, []⟩).2 = some "disk full" ∧
    (StatusStorage.Append (fun _ => some "disk full") ⟨[], 0⟩ ⟨0, []⟩).1.history ≠
      ([] : List StatusEntry) := by
  exact ⟨rfl, by simp [StatusStorage.Append]⟩

/-- C4 (amended): when the persist step fails, `Append` does return the
error to the caller, but the in-memory series has already been advanced:
the new entry is appended and the version bumped before the persist
attempt, and the entry stays in memory, so subsequent reads observe the
series including the new entry. -/
theorem C4_append_advances_on_failure (persist : List StatusEntry → Option String)
    (s : StatusStorage) (e : StatusEntry) (err : String)
    (hfail : (StatusStorage.Append persist s e).2 = some err) :
    (StatusStorage.Append persist s e).2 = persist (s.history ++ [e]) ∧
    (StatusStorage.Append persist s e).1.history = s.history ++ [e] ∧
    (StatusStorage.Append persist s e).1.version = s.version + 1 ∧
    StatusStorage.Latest (StatusStorage.Append persist s e).1 = some e := by
  refine ⟨rfl, rfl, rfl, ?_⟩
  simp [StatusStorage.Latest, StatusStorage.Append, List.getLast?_concat]

theorem C4_append_advances_on_failure_witness :
    (StatusStorage.Append (fun _ => some "disk full") ⟨[], 0⟩ ⟨0, []⟩).1.history =
      [] ++ [⟨0, []⟩] ∧
    StatusStorage.Latest (StatusStorage.Append (fun _ => some "disk full") ⟨[], 0⟩ ⟨0, []⟩).1 =
      some ⟨0, []⟩ :=
  ⟨(C4_append_advances_on_failure (fun _ => some "disk full") ⟨[], 0⟩ ⟨0, []⟩ "disk full"
      rfl).2.1,
   (C4_append_advances_on_failure (fun _ => some "disk full") ⟨[], 0⟩ ⟨0, []⟩ "disk full"
      rfl).2.2.2⟩

theorem searchLoop_spec (f : Nat → Bool) (n : Nat)
    (hmono : ∀ a b, a ≤ b → b < n → f a = true → f b = true) :
    ∀ i j, i ≤ j → j ≤ n →
      i ≤ searchLoop f i j ∧ searchLoop f i j ≤ j ∧
      (∀ k, i ≤ k → k < searchLoop f i j → f k = false) ∧
      (∀ k, searchLoop f i j ≤ k → k < j → f k = true) := by
  intro i j
  induction i, j using searchLoop.induct f with
  | case1 i j hij m hfm ih =>
      intro _ hjn
      have hmi : i ≤ m := by omega
      have hmj : m < j := by omega
      obtain ⟨h1, h2, h3, h4⟩ := ih hmi (by omega)
      have hrw : searchLoop f i j = searchLoop f i m := by
        rw [searchLoop.eq_def]
        simp only [dif_pos hij, hfm, if_true]
      refine ⟨by omega, by omega, fun k hk1 hk2 => h3 k hk1 (by omega), ?_⟩
      intro k hk1 hk2
      rw [hrw] at hk1
      by_cases hkm : k < m
      · exact h4 k hk1 hkm
      · exact hmono m k (by omega) (by omega) hfm
  | case2 i j hij m hfm ih =>
      intro _ hjn
      have hmi : i ≤ m := by omega
      have hmj : m < j := by omega
      obtain ⟨h1, h2, h3, h4⟩ := ih (by omega) (by omega)
      have hrw : searchLoop f i j = searchLoop f (m + 1) j := by
        rw [searchLoop.eq_def]
        simp only [dif_pos hij, hfm]
        simp
      refine ⟨by omega, by omega, ?_, ?_⟩
      · intro k hk1 hk2
        rw [hrw] at hk2
        by_cases hkm : m + 1 ≤ k
        · exact h3 k hkm hk2
        · have : k ≤ m := by omega
          by_cases hfk : f k = true
          · have : f m = true := hmono k m this (by omega) hfk
            simp [this] at hfm
          · simpa using hfk
      · intro k hk1 hk2
        rw [hrw] at hk1
        exact h4 k hk1 hk2
  | case3 i j hij =>
      intro hij' _
      have : i = j := by omega
      subst this
      have hrw : searchLoop f i i = i := by
        rw [searchLoop.eq_def]
        simp
      refine ⟨by omega, by omega, ?_, ?_⟩ <;> intro k hk1 hk2 <;> rw [hrw] at * <;> omega

/-- The window-restriction predicate of C8: timestamp within `[t, now]`. -/
def inWin (t now : Int) (e : StatusEntry) : Bool :=
  decide (t ≤ e.timestamp) && decide (e.timestamp ≤ now)

/-- The binary-search predicate of `HistorySince`. -/
def sincePred (h : List StatusEntry) (cutoff : Int) : Nat → Bool :=
  fun i => !(decide ((h.getD i dfltEntry).timestamp < cutoff))

theorem HistorySince_eq_drop (s : StatusStorage) (cutoff : Int) :
    s.HistorySince cutoff =
      s.history.drop (sortSearch s.history.length (sincePred s.history cutoff)) := by
  simp only [StatusStorage.HistorySince, sincePred]
  split_ifs with h1 h2
  · simp [h1]
  · exact (List.drop_eq_nil_of_le h2).symm
  · rfl

theorem sincePred_mono (h : List StatusEntry) (cutoff : Int)
    (hsorted : h.Pairwise (fun a b => a.timestamp ≤ b.timestamp)) :
    ∀ a b, a ≤ b → b < h.length →
      sincePred h cutoff a = true → sincePred h cutoff b = true := by
  intro a b hab hb hfa
  have ha : a < h.length := by omega
  simp only [sincePred, Bool.not_eq_true', decide_eq_false_iff_not, not_lt,
    List.getD_eq_getElem _ _ ha, List.getD_eq_getElem _ _ hb] at hfa ⊢
  rcases Nat.lt_or_ge a b with hlt | hge
  · have := (List.pairwise_iff_getElem.mp hsorted) a b ha hb hlt
    omega
  · have : a = b := by omega
    subst this
    exact hfa

theorem sortSearch_spec (f : Nat → Bool) (n : Nat)
    (hmono : ∀ a b, a ≤ b → b < n → f a = true → f b = true) :
    sortSearch n f ≤ n ∧ (∀ k, k < sortSearch n f → f k = false) ∧
      (∀ k, sortSearch n f ≤ k → k < n → f k = true) := by
  have h := searchLoop_spec f n hmono 0 n (by omega) (le_refl n)
  exact ⟨h.2.1, fun k hk => h.2.2.1 k (by omega) hk, h.2.2.2⟩

theorem since_take_lt (s : StatusStorage) (cutoff : Int)
    (hsorted : s.history.Pairwise (fun a b => a.timestamp ≤ b.timestamp)) :
    ∀ e ∈ s.history.take (sortSearch s.history.length (sincePred s.history cutoff)),
      e.timestamp < cutoff := by
  intro e he
  set idx := sortSearch s.history.length (sincePred s.history cutoff) with hidx
  obtain ⟨i, hi, hie⟩ := List.mem_take_iff_getElem.mp he
  have hin : i < s.history.length := lt_of_lt_of_le hi (min_le_right _ _)
  have hiidx : i < idx := lt_of_lt_of_le hi (min_le_left _ _)
  have hspec := sortSearch_spec (sincePred s.history cutoff) s.history.length
    (sincePred_mono s.history cutoff hsorted)
  have hfalse : sincePred s.history cutoff i = false := hspec.2.1 i hiidx
  simp only [sincePred, Bool.not_eq_false', decide_eq_true_eq,
    List.getD_eq_getElem _ _ hin] at hfalse
  rw [← hie]
  exact hfalse

theorem since_drop_ge (s : StatusStorage) (cutoff : Int)
    (hsorted : s.history.Pairwise (fun a b => a.timestamp ≤ b.timestamp)) :
    ∀ e ∈ s.history.drop (sortSearch s.history.length (sincePred s.history cutoff)),
      cutoff ≤ e.timestamp := by
  intro e he
  set idx := sortSearch s.history.length (sincePred s.history cutoff) with hidx
  obtain ⟨i, hi, hie⟩ := List.mem_drop_iff_getElem.mp he
  have hspec := sortSearch_spec (sincePred s.history cutoff) s.history.length
    (sincePred_mono s.history cutoff hsorted)
  have htrue : sincePred s.history cutoff (idx + i) = true :=
    hspec.2.2 (idx + i) (by omega) (by omega)
  simp only [sincePred, Bool.not_eq_true', decide_eq_false_iff_not, not_lt,
    List.getD_eq_getElem _ _ (show idx + i < s.history.length by omega)] at htrue
  rw [← hie]
  exact htrue

theorem filter_inWin_drop (l : List StatusEntry) (m : Nat) (t now : Int)
    (hlt : ∀ e ∈ l.take m, e.timestamp < t) :
    (l.drop m).filter (inWin t now) = l.filter (inWin t now) := by
  conv_rhs => rw [← List.take_append_drop m l]
  rw [List.filter_append]
  have hnil : (l.take m).filter (inWin t now) = [] := by
    rw [List.filter_eq_nil_iff]
    intro e he
    simp [inWin, not_le.mpr (hlt e he)]
  rw [hnil, List.nil_append]

theorem since_filter_length (s : StatusStorage) (t : Int)
    (hsorted : s.history.Pairwise (fun a b => a.timestamp ≤ b.timestamp)) :
    (s.history.filter (fun e => decide (t ≤ e.timestamp))).length =
      s.history.length - sortSearch s.history.length (sincePred s.history t) := by
  set idx := sortSearch s.history.length (sincePred s.history t) with hidx
  conv_lhs => rw [← List.take_append_drop idx s.history]
  rw [List.filter_append]
  have h1 : (s.history.take idx).filter (fun e => decide (t ≤ e.timestamp)) = [] := by
    rw [List.filter_eq_nil_iff]
    intro e he
    simp [not_le.mpr (since_take_lt s t hsorted e he)]
  have h2 : (s.history.drop idx).filter (fun e => decide (t ≤ e.timestamp)) =
      s.history.drop idx := by
    rw [List.filter_eq_self]
    intro e he
    simp [since_drop_ge s t hsorted e he]
  rw [h1, h2, List.nil_append, List.length_drop]

/-- C8: on a non-decreasing history, `HistorySince t` and `HistoryN k`
restricted to the window `[t, now]` return the same entries (even as lists)
whenever `k` covers the number of entries with timestamp ≥ t, and
`HistoryN n` with `n ≤ 0` returns the whole series. -/
theorem C8_since_historyN_agree (s : StatusStorage) (t now k : Int)
    (hsorted : s.history.Pairwise (fun a b => a.timestamp ≤ b.timestamp))
    (hk : ((s.history.filter (fun e => decide (t ≤ e.timestamp))).length : Int) ≤ k) :
    (s.HistorySince t).filter (inWin t now) = (s.HistoryN k).filter (inWin t now) ∧
    (∀ n : Int, n ≤ 0 → s.HistoryN n = s.history) := by
  constructor
  · set idx := sortSearch s.history.length (sincePred s.history t) with hidx
    have hspec := sortSearch_spec (sincePred s.history t) s.history.length
      (sincePred_mono s.history t hsorted)
    have hidxle : idx ≤ s.history.length := hspec.1
    have hsince : (s.HistorySince t).filter (inWin t now) =
        s.history.filter (inWin t now) := by
      rw [HistorySince_eq_drop]
      exact filter_inWin_drop _ _ _ _ (since_take_lt s t hsorted)
    have hcount := since_filter_length s t hsorted
    rw [hsince]
    simp only [StatusStorage.HistoryN]
    split_ifs with hcase
    · rfl
    · push_neg at hcase
      have hkpos : 0 < k := hcase.1
      have hklt : k < (s.history.length : Int) := hcase.2
      have hmle : s.history.length - k.toNat ≤ idx := by omega
      refine (filter_inWin_drop _ _ _ _ ?_).symm
      intro e he
      have hsub : s.history.take (s.history.length - k.toNat) ⊆ s.history.take idx := by
        intro x hx
        rw [← Nat.min_eq_left hmle, ← List.take_take] at hx
        exact List.take_subset _ _ hx
      exact since_take_lt s t hsorted e (hsub he)
  · intro n hn
    simp [StatusStorage.HistoryN, hn]

/-- A concrete sorted two-entry store for the C8 witness. -/
def c8store : StatusStorage := ⟨[⟨0, []⟩, ⟨10, []⟩], 2⟩

theorem C8_since_historyN_agree_witness :
    (c8store.HistorySince 5).filter (inWin 5 20) =
      (c8store.HistoryN 1).filter (inWin 5 20) ∧
    c8store.HistoryN (-3) = c8store.history :=
  ⟨(C8_since_historyN_agree c8store 5 20 1 (by decide) (by decide)).1,
   (C8_since_historyN_agree c8store 5 20 1 (by decide) (by decide)).2 (-3) (by decide)⟩

/-! ## Cluster aggregator (`internal/cluster/service.go`, the window-aware
variant). Connectivity-related snapshot fields are omitted: none of the
functions below read or write them. -/

/-- Go `cluster.Node`. -/
structure Node where
  id : String
  name : String
  intervalMinutes : Int
  deriving Repr, DecidableEq

/-- Go `cluster.PeerSnapshot` (connectivity fields and service timelines
omitted as unused by the aggregation read path). -/
structure PeerSnapshot where
  node : Node
  status : Option StatusEntry
  history : List StatusEntry
  services : List ServiceUptime
  targets : List Target
  updatedAt : Int
  error : String
  source : String
  deriving Repr, DecidableEq

/-- Go `cluster.ClusterSnapshot`. -/
structure ClusterSnapshot where
  generatedAt : Int
  range : String
  rangeStart : Int
  rangeEnd : Int
  nodes : List PeerSnapshot
  deriving Repr, DecidableEq

/-- The fields of `config.Peer` the aggregator reads (base URL and API key
live inside the fetch oracle). -/
structure PeerConfig where
  id : String
  name : String
  enabled : Bool
  deriving Repr, DecidableEq

/-- The state of `cluster.Service` relevant to the read path: node
identity, the status storage, targets, probe interval and the peer cache
(a map from peer id to its last snapshot). -/
structure Service where
  node : Node
  storage : StatusStorage
  targets : List Target
  interval : Int
  peersData : List (String × PeerSnapshot)
  deriving Repr, DecidableEq

/-- Go `windowKey`. -/
def windowKey (start end_ : Int) : String :=
  let duration := end_ - start
  if 30 * 24 * hourNs ≤ duration then "30d"
  else if 24 * hourNs ≤ duration then "24h"
  else ""

/-- Go `filterHistory`: keep entries with `start ≤ timestamp ≤ end`. -/
def filterHistory (entries : List StatusEntry) (start end_ : Int) : List StatusEntry :=
  if entries = [] then []
  else entries.filter (fun e => !(decide (e.timestamp < start)) && !(decide (end_ < e.timestamp)))

/-- Go `Service.localSnapshot`: a fresh snapshot of the local node for the
requested window, with uptime recomputed over the re-filtered history. -/
def Service.localSnapshot (s : Service) (start end_ now : Int) : PeerSnapshot :=
  let history := filterHistory (s.storage.HistorySince start) start end_
  let services := ComputeServiceUptime history start end_ s.interval s.targets
  { node := { id := s.node.id, name := s.node.name, intervalMinutes := s.interval / minuteNs },
    status := s.storage.Latest, history := history, services := services,
    targets := s.targets, updatedAt := now, error := "", source := "local" }

/-- Go `Service.materialisePeerSnapshot`: re-filter the cached peer history
to the requested window and recompute its uptime locally; the cached
`services` field is discarded. -/
def Service.materialisePeerSnapshot (s : Service) (snapshot : PeerSnapshot)
    (start end_ : Int) : PeerSnapshot :=
  let history := filterHistory snapshot.history start end_
  let interval0 := snapshot.node.intervalMinutes * minuteNs
  let interval := if interval0 ≤ 0 then s.interval else interval0
  let endpoint := if end_ < start then start else end_
  let services := ComputeServiceUptime history start endpoint interval snapshot.targets
  { node := snapshot.node, status := snapshot.status, history := history,
    services := services, targets := snapshot.targets, updatedAt := snapshot.updatedAt,
    error := snapshot.error, source := snapshot.source }

/-- Go `Service.Snapshot`: clamp the window end to now, then combine a fresh
local snapshot with the materialised cached peer snapshots. -/
def Service.Snapshot (s : Service) (now start end_ : Int) : ClusterSnapshot :=
  let end2 := if now < end_ then now else end_
  { generatedAt := now, range := windowKey start end2, rangeStart := start, rangeEnd := end2,
    nodes := Service.localSnapshot s start end2 now ::
      s.peersData.map (fun kv => Service.materialisePeerSnapshot s kv.2 start end2) }

/-- The effective interval used when materialising a cached peer snapshot:
the peer's advertised interval when positive, else the local one. -/
def effInterval (s : Service) (snapshot : PeerSnapshot) : Int :=
  if snapshot.node.intervalMinutes * minuteNs ≤ 0 then s.interval
  else snapshot.node.intervalMinutes * minuteNs

theorem ComputeServiceUptime_clamp (h : List StatusEntry) (start end_ interval : Int)
    (t : List Target) :
    ComputeServiceUptime h start (if end_ < start then start else end_) interval t =
      ComputeServiceUptime h start end_ interval t := by
  by_cases hc : end_ < start
  · rw [if_pos hc]
    simp only [ComputeServiceUptime]
    rw [if_neg (lt_irrefl start), if_pos hc]
  · rw [if_neg hc]

/-- C5: the cluster snapshot for `[start, end]` consists of a fresh local
snapshot plus the materialised cached peers; each materialised peer carries
the cached history re-filtered to the clamped window and services
recomputed locally over exactly that window (whatever aggregates the peer
reported are discarded), and the local snapshot's services are likewise
computed from its own window-filtered history. -/
theorem C5_snapshot_recomputes_per_window (s : Service) (now start end_ end2 : Int)
    (hend2 : end2 = if now < end_ then now else end_) :
    (Service.Snapshot s now start end_).nodes =
      Service.localSnapshot s start end2 now ::
        s.peersData.map (fun kv => Service.materialisePeerSnapshot s kv.2 start end2) ∧
    (∀ kv ∈ s.peersData,
      (Service.materialisePeerSnapshot s kv.2 start end2).history =
        filterHistory kv.2.history start end2 ∧
      (Service.materialisePeerSnapshot s kv.2 start end2).services =
        ComputeServiceUptime (filterHistory kv.2.history start end2) start end2
          (effInterval s kv.2) kv.2.targets) ∧
    (∀ snap svcs, Service.materialisePeerSnapshot s { snap with services := svcs } start end2 =
        Service.materialisePeerSnapshot s snap start end2) ∧
    (Service.localSnapshot s start end2 now).services =
      ComputeServiceUptime (Service.localSnapshot s start end2 now).history start end2
        s.interval s.targets := by
  subst hend2
  refine ⟨rfl, ?_, ?_, rfl⟩
  · intro kv _
    refine ⟨rfl, ?_⟩
    simp only [Service.materialisePeerSnapshot, effInterval]
    rw [ComputeServiceUptime_clamp]
  · intro snap svcs
    rfl

/-- One cached peer snapshot for the C5/C6 witnesses. -/
def w5peer : PeerSnapshot :=
  { node := ⟨"peer-b", "B", 0⟩, status := none, history := [⟨0, []⟩],
    services := [], targets := [], updatedAt := 7, error := "", source := "peer" }

/-- A tiny cluster service with one cached peer for the C5/C6 witnesses. -/
def w5service : Service :=
  { node := ⟨"node-a", "A", 1⟩, storage := ⟨[], 0⟩, targets := [],
    interval := minuteNs, peersData := [("peer-b", w5peer)] }

theorem C5_snapshot_recomputes_per_window_witness :
    (Service.Snapshot w5service 100 0 50).nodes =
      Service.localSnapshot w5service 0 50 100 ::
        [("peer-b", w5peer)].map
          (fun kv => Service.materialisePeerSnapshot w5service kv.2 0 50) ∧
    (Service.materialisePeerSnapshot w5service w5peer 0 50).services =
      ComputeServiceUptime (filterHistory w5peer.history 0 50) 0 50
        (effInterval w5service w5peer) w5peer.targets :=
  ⟨(C5_snapshot_recomputes_per_window w5service 100 0 50 50 (by decide)).1,
   ((C5_snapshot_recomputes_per_window w5service 100 0 50 50 (by decide)).2.1
      ("peer-b", w5peer) (List.Mem.head _)).2⟩

/-- The error-only snapshot `fetchAllPeers` writes on a failed fetch. -/
def failedPeerSnapshot (peer : PeerConfig) (now : Int) (errText : String) : PeerSnapshot :=
  { node := { id := peer.id, name := peer.name, intervalMinutes := 0 },
    status := none, history := [], services := [], targets := [],
    updatedAt := now, error := errText, source := "peer" }

/-- Go `Service.fetchAllPeers` over a fetch oracle: enabled peers are
fetched; a successful fetch stores the derived snapshot (the body of
`fetchPeer`), a failed one stores the error-only snapshot. -/
def fetchAllPeers (fetch : PeerConfig → Except String PeerSnapshot) (now : Int)
    (peers : List PeerConfig) (cache : List (String × PeerSnapshot)) :
    List (String × PeerSnapshot) :=
  peers.foldl (fun acc peer =>
    if peer.enabled then
      match fetch peer with
      | .ok snap => setKey acc peer.id snap
      | .error e => setKey acc peer.id (failedPeerSnapshot peer now e)
    else acc) cache

theorem fetchAllPeers_lookup_failed (fetch : PeerConfig → Except String PeerSnapshot)
    (now : Int) :
    ∀ (peers : List PeerConfig) (cache : List (String × PeerSnapshot)) (p : PeerConfig)
      (e : String),
      p.enabled = true → fetch p = .error e →
      (∀ q ∈ peers, q.id = p.id → q = p) →
      (p ∈ peers ∨ List.lookup p.id cache = some (failedPeerSnapshot p now e)) →
      List.lookup p.id (fetchAllPeers fetch now peers cache) =
        some (failedPeerSnapshot p now e) := by
  intro peers
  induction peers with
  | nil =>
      intro cache p e _ _ _ hdisj
      rcases hdisj with h | h
      · simp at h
      · simpa [fetchAllPeers] using h
  | cons q qs ih =>
      intro cache p e hen hfe huniq hdisj
      have hstep : fetchAllPeers fetch now (q :: qs) cache =
          fetchAllPeers fetch now qs
            (if q.enabled then
              match fetch q with
              | .ok snap => setKey cache q.id snap
              | .error er => setKey cache q.id (failedPeerSnapshot q now er)
            else cache) := rfl
      rw [hstep]
      set cache2 := (if q.enabled then
          match fetch q with
          | .ok snap => setKey cache q.id snap
          | .error er => setKey cache q.id (failedPeerSnapshot q now er)
        else cache) with hc2
      refine ih cache2 p e hen hfe (fun r hr => huniq r (List.mem_cons_of_mem q hr)) ?_
      by_cases hpq : q = p
      · subst hpq
        right
        rw [hc2, if_pos hen, hfe]
        exact lookup_setKey_self cache q.id _
      · rcases hdisj with hmem | hlook
        · rcases List.mem_cons.mp hmem with h | h
          · exact absurd h.symm hpq
          · exact Or.inl h
        · right
          have hid : p.id ≠ q.id := by
            intro hcontra
            exact hpq (huniq q (List.mem_cons_self q qs) hcontra.symm)
          rw [hc2]
          split_ifs
          · cases hfq : fetch q <;> simp only [hfq] <;>
              rw [lookup_setKey_ne _ _ _ _ hid] <;> exact hlook
          · exact hlook

/-- C6: a failed fetch of an enabled peer replaces its cache entry by the
error-only snapshot (node identity, error text, refresh timestamp; no
status, history, services or targets); that peer still appears in every
subsequent cluster snapshot, as an entry with its id, error and timestamp
and empty data; and the local node's snapshot is complete and entirely
independent of the peer cache contents. -/
theorem C6_failed_peer_snapshot (fetch : PeerConfig → Except String PeerSnapshot)
    (now : Int) (peers : List PeerConfig) (cache : List (String × PeerSnapshot))
    (p : PeerConfig) (e : String)
    (hen : p.enabled = true) (hfe : fetch p = .error e) (hmem : p ∈ peers)
    (huniq : ∀ q ∈ peers, q.id = p.id → q = p) :
    List.lookup p.id (fetchAllPeers fetch now peers cache) =
      some (failedPeerSnapshot p now e) ∧
    ((failedPeerSnapshot p now e).status = none ∧
      (failedPeerSnapshot p now e).history = [] ∧
      (failedPeerSnapshot p now e).services = [] ∧
      (failedPeerSnapshot p now e).targets = [] ∧
      (failedPeerSnapshot p now e).error = e ∧
      (failedPeerSnapshot p now e).updatedAt = now ∧
      (failedPeerSnapshot p now e).node = ⟨p.id, p.name, 0⟩) ∧
    (∀ (s : Service) (now2 start end_ : Int),
      (p.id, failedPeerSnapshot p now e) ∈ s.peersData →
      ∃ nodeSnap ∈ (Service.Snapshot s now2 start end_).nodes,
        nodeSnap.node.id = p.id ∧ nodeSnap.error = e ∧ nodeSnap.updatedAt = now ∧
        nodeSnap.status = none ∧ nodeSnap.history = [] ∧ nodeSnap.services = [] ∧
        nodeSnap.targets = []) ∧
    (∀ (s : Service) (cache2 : List (String × PeerSnapshot)) (now2 start end_ : Int),
      (Service.Snapshot { s with peersData := cache2 } now2 start end_).nodes.head? =
        some (Service.localSnapshot s start (if now2 < end_ then now2 else end_) now2)) := by
  refine ⟨fetchAllPeers_lookup_failed fetch now peers cache p e hen hfe huniq (Or.inl hmem),
    ⟨rfl, rfl, rfl, rfl, rfl, rfl, rfl⟩, ?_, ?_⟩
  · intro s now2 start end_ hin
    refine ⟨Service.materialisePeerSnapshot s (failedPeerSnapshot p now e) start
      (if now2 < end_ then now2 else end_), ?_, rfl, rfl, rfl, rfl, rfl, rfl, rfl⟩
    simp only [Service.Snapshot]
    exact List.mem_cons_of_mem _
      (List.mem_map.mpr ⟨(p.id, failedPeerSnapshot p now e), hin, rfl⟩)
  · intro s cache2 now2 start end_
    rfl

/-- Peer configuration used by the C6 witness. -/
def w6peerCfg : PeerConfig := ⟨"peer-b", "B", true⟩

/-- A fetch oracle that always times out, for the C6 witness. -/
def w6fetch : PeerConfig → Except String PeerSnapshot := fun _ => .error "timeout"

theorem C6_failed_peer_snapshot_witness :
    List.lookup "peer-b" (fetchAllPeers w6fetch 9 [w6peerCfg] []) =
      some (failedPeerSnapshot w6peerCfg 9 "timeout") ∧
    (failedPeerSnapshot w6peerCfg 9 "timeout").history = [] :=
  ⟨(C6_failed_peer_snapshot w6fetch 9 [w6peerCfg] [] w6peerCfg "timeout" rfl rfl
      (List.Mem.head _) (fun q hq _ => List.mem_singleton.mp hq)).1,
   (C6_failed_peer_snapshot w6fetch 9 [w6peerCfg] [] w6peerCfg "timeout" rfl rfl
      (List.Mem.head _) (fun q hq _ => List.mem_singleton.mp hq)).2.1.2.1⟩

/-! ## Connectivity timeline (`internal/history/timeline.go`, lines 248-408) -/

/-- Go `connectivityState`. -/
def connectivityState (status : ConnectivityStatus) : String :=
  if status.ok then "online"
  else if status.error ≠ "" then "offline"
  else "unknown"

/-- Go `connectivityDetail`. -/
def connectivityDetail (status : ConnectivityStatus) : TimelineDetail :=
  ⟨status.checkedAt, connectivityState status, status.error⟩

/-- Go `connectivityClass`. -/
def connectivityClass (status : ConnectivityStatus) : String × String :=
  if status.ok then ("state-success", "Operational")
  else if status.error ≠ "" then ("state-error", "Unavailable")
  else ("state-warning", "Unknown")

/-- The positive gaps between consecutive samples (`diffs` in
`deriveConnectivityGap`). -/
def connDiffs (samples : List ConnectivityStatus) : List Int :=
  (samples.zip samples.tail).filterMap
    (fun pc => if pc.1.checkedAt < pc.2.checkedAt then some (pc.2.checkedAt - pc.1.checkedAt)
               else none)

/-- Comparator for sorting durations ascending. -/
def intLe (a b : Int) : Bool := !(decide (b < a))

/-- The median `diffs[len(diffs)/2]` of the sorted gap list. -/
def connMedian (samples : List ConnectivityStatus) : Int :=
  (goSortBy intLe (connDiffs samples)).getD ((connDiffs samples).length / 2) 0

/-- Go `deriveConnectivityGap`: 5 minutes by default, otherwise twice the
median inter-sample gap clamped to [1 minute, 2 hours]. -/
def deriveConnectivityGap (samples : List ConnectivityStatus) : Int :=
  let defaultGap := 5 * minuteNs
  if samples.length < 2 then defaultGap
  else if connDiffs samples = [] then defaultGap
  else
    let median := connMedian samples
    if median ≤ 0 then defaultGap
    else
      let gap := median * 2
      if gap < minuteNs then minuteNs
      else if 2 * hourNs < gap then 2 * hourNs
      else gap

/-- The loop state of `BuildConnectivityTimeline`: the samples not yet
consumed (the cursor) and the last known sample. -/
structure ConnState where
  remaining : List ConnectivityStatus
  last : Option ConnectivityStatus
  deriving Repr, DecidableEq

/-- One iteration of the bucket loop of `BuildConnectivityTimeline`
(lines 285-342): consume the samples up to the bucket end; classify from
the newest own sample, else hold the last known sample over when the gap
from it to the bucket start is within the threshold, else report MISSING. -/
def connBucketStep (gap : Int) (st : ConnState) (bucketStart bucketEnd : Int) :
    TimelinePoint × ConnState :=
  let consumed := st.remaining.takeWhile (fun s => !(decide (bucketEnd < s.checkedAt)))
  let rest := st.remaining.drop consumed.length
  let last2 := if consumed = [] then st.last else consumed.getLast?
  let cl : String × String :=
    match consumed.getLast? with
    | some selected => connectivityClass selected
    | none =>
      match st.last with
      | some l =>
          if bucketStart - l.checkedAt ≤ gap then connectivityClass l
          else ("state-missing", "No data")
      | none => ("state-missing", "No data")
  let details : List TimelineDetail :=
    match consumed.getLast? with
    | some _ => (consumed.take maxDetailsPerPoint).map connectivityDetail
    | none =>
      match st.last with
      | some l =>
          if bucketStart - l.checkedAt ≤ gap then
            [{ connectivityDetail l with timestamp := bucketStart }]
          else []
      | none => []
  let pointDetails := if cl.1 = "state-missing" then [] else details
  (⟨cl.1, cl.2, bucketStart, bucketEnd, pointDetails⟩, ⟨rest, last2⟩)

/-- Comparator sorting connectivity samples by CheckedAt ascending. -/
def connLe (a b : ConnectivityStatus) : Bool := !(decide (b.checkedAt < a.checkedAt))

/-- Go `BuildConnectivityTimeline` (the gap-threshold variant). -/
def BuildConnectivityTimeline (entries : List ConnectivityStatus) (start end_ : Int)
    (points : Int) : List TimelinePoint :=
  let pts := if points ≤ 0 then DefaultTimelinePoints else points.toNat
  let end2 := if ¬ start < end_ then start + minuteNs else end_
  let samples := goSortBy connLe (entries.filter (fun e => !(decide (e.checkedAt = 0))))
  let bd0 := (end2 - start) / (pts : Int)
  let bd := if bd0 ≤ 0 then minuteNs else bd0
  let gap := deriveConnectivityGap samples
  let pre := samples.takeWhile (fun s => decide (s.checkedAt < start))
  let st0 : ConnState := ⟨samples.drop pre.length, pre.getLast?⟩
  ((List.range pts).foldl (fun (acc : List TimelinePoint × ConnState) i =>
    let bucketStart := start + (i : Int) * bd
    let bucketEnd := if i = pts - 1 then end2 else bucketStart + bd
    let pr := connBucketStep gap acc.2 bucketStart bucketEnd
    (acc.1 ++ [pr.1], pr.2)) ([], st0)).1

/-- Holds when a list of sample times has fewer than two distinct values. -/
def noTwoDistinct (l : List Int) : Prop := ∀ a ∈ l, ∀ b ∈ l, a = b

theorem connDiffs_pos (samples : List ConnectivityStatus) :
    ∀ d ∈ connDiffs samples, 0 < d := by
  intro d hd
  obtain ⟨pc, _, hpc⟩ := List.mem_filterMap.mp hd
  by_cases h : pc.1.checkedAt < pc.2.checkedAt
  · rw [if_pos h] at hpc
    cases hpc
    omega
  · rw [if_neg h] at hpc
    cases hpc

theorem connDiffs_nil_of_noTwoDistinct (samples : List ConnectivityStatus)
    (hno : noTwoDistinct (samples.map ConnectivityStatus.checkedAt)) :
    connDiffs samples = [] := by
  unfold connDiffs
  rw [List.filterMap_eq_nil_iff]
  intro pc hpc
  obtain ⟨h1, h2⟩ := List.mem_zip hpc
  have hm1 : pc.1.checkedAt ∈ samples.map ConnectivityStatus.checkedAt :=
    List.mem_map_of_mem _ h1
  have hm2 : pc.2.checkedAt ∈ samples.map ConnectivityStatus.checkedAt :=
    List.mem_map_of_mem _ (List.mem_of_mem_tail h2)
  have := hno _ hm1 _ hm2
  rw [if_neg (by omega)]

theorem noTwoDistinct_of_connDiffs_nil (samples : List ConnectivityStatus)
    (hsorted : (samples.map ConnectivityStatus.checkedAt).Pairwise (· ≤ ·))
    (hnil : connDiffs samples = []) :
    noTwoDistinct (samples.map ConnectivityStatus.checkedAt) := by
  have hpairs : ∀ pc ∈ samples.zip samples.tail,
      ¬ pc.1.checkedAt < pc.2.checkedAt := by
    intro pc hpc hlt
    have : (if pc.1.checkedAt < pc.2.checkedAt then
        some (pc.2.checkedAt - pc.1.checkedAt) else none) = none :=
      List.filterMap_eq_nil_iff.mp hnil pc hpc
    rw [if_pos hlt] at this
    cases this
  clear hnil
  induction samples with
  | nil => intro a ha; simp at ha
  | cons x xs ih =>
      cases xs with
      | nil =>
          intro a ha b hb
          simp at ha hb
          omega
      | cons y ys =>
          have hxy : ¬ x.checkedAt < y.checkedAt :=
            hpairs (x, y) (by simp [List.zip])
          have hxy2 : x.checkedAt ≤ y.checkedAt := by
            have := List.pairwise_iff_getElem.mp hsorted 0 1 (by simp) (by simp) (by omega)
            simpa using this
          have heq : x.checkedAt = y.checkedAt := by omega
          have htail : noTwoDistinct ((y :: ys).map ConnectivityStatus.checkedAt) := by
            refine ih hsorted.of_cons ?_
            intro pc hpc
            exact hpairs pc (by simp [List.zip] at hpc ⊢; exact Or.inr hpc)
          intro a ha b hb
          simp only [List.map_cons, List.mem_cons] at ha hb
          have hy : y.checkedAt ∈ (y :: ys).map ConnectivityStatus.checkedAt := by simp
          rcases ha with ha | ha <;> rcases hb with hb | hb
          · omega
          · have := htail _ hy _ (by simpa using hb)
            omega
          · have := htail _ hy _ (by simpa using ha)
            omega
          · have h1 := htail _ hy _ (by simpa using ha)
            have h2 := htail _ hy _ (by simpa using hb)
            omega

theorem two_le_length_of_not_noTwoDistinct (samples : List ConnectivityStatus)
    (hdist : ¬ noTwoDistinct (samples.map ConnectivityStatus.checkedAt)) :
    2 ≤ samples.length := by
  by_contra hlen
  apply hdist
  intro a ha b hb
  match samples, hlen with
  | [], _ => simp at ha
  | [x], _ =>
      simp at ha hb
      omega
  | x :: y :: rest, h => exact (h (by simp only [List.length_cons]; omega)).elim

theorem connMedian_mem (samples : List ConnectivityStatus)
    (hne : connDiffs samples ≠ []) :
    connMedian samples ∈ connDiffs samples := by
  unfold connMedian
  have hlen : (goSortBy intLe (connDiffs samples)).length = (connDiffs samples).length :=
    (goSortBy_perm intLe (connDiffs samples)).length_eq
  have hlt : (connDiffs samples).length / 2 < (goSortBy intLe (connDiffs samples)).length := by
    rw [hlen]
    have : 0 < (connDiffs samples).length := List.length_pos.mpr hne
    omega
  rw [List.getD_eq_getElem _ _ hlt]
  exact (mem_goSortBy intLe (connDiffs samples) _).mp (List.getElem_mem hlt)

/-- C7: in the connectivity variant, a bucket with no samples of its own is
classified by holding over the last known sample exactly when the gap from
it to the bucket start is within the threshold (silence past the threshold
gives a "No data" bucket, and a held-over class is never "No data"); the
threshold is 5 minutes when fewer than two distinct sample times exist and
otherwise twice the median inter-sample gap clamped to [1 minute, 2 hours]. -/
theorem C7_connectivity_holdover (gap bs be : Int) (st : ConnState)
    (samples : List ConnectivityStatus)
    (hsorted : (samples.map ConnectivityStatus.checkedAt).Pairwise (· ≤ ·)) :
    (st.remaining.takeWhile (fun s => !(decide (be < s.checkedAt))) = [] →
      ((st.last = none → (connBucketStep gap st bs be).1.className = "state-missing") ∧
       (∀ l, st.last = some l →
         (connBucketStep gap st bs be).1.className =
           if bs - l.checkedAt ≤ gap then (connectivityClass l).1 else "state-missing"))) ∧
    (∀ c, (connectivityClass c).1 ≠ "state-missing") ∧
    (noTwoDistinct (samples.map ConnectivityStatus.checkedAt) →
      deriveConnectivityGap samples = 5 * minuteNs) ∧
    (¬ noTwoDistinct (samples.map ConnectivityStatus.checkedAt) →
      deriveConnectivityGap samples =
        max minuteNs (min (2 * hourNs) (connMedian samples * 2))) := by
  refine ⟨?_, ?_, ?_, ?_⟩
  · intro hcons
    constructor
    · intro hlast
      simp only [connBucketStep, hcons, hlast, List.getLast?_nil]
    · intro l hlast
      simp only [connBucketStep, hcons, hlast, List.getLast?_nil]
      split <;> rfl
  · intro c
    unfold connectivityClass
    split_ifs <;> simp
  · intro hno
    unfold deriveConnectivityGap
    by_cases hl : samples.length < 2
    · rw [if_pos hl]
    · rw [if_neg hl, if_pos (connDiffs_nil_of_noTwoDistinct samples hno)]
  · intro hdist
    have hlen2 := two_le_length_of_not_noTwoDistinct samples hdist
    have hdne : connDiffs samples ≠ [] := by
      intro hnil
      exact hdist (noTwoDistinct_of_connDiffs_nil samples hsorted hnil)
    have hmed : 0 < connMedian samples :=
      connDiffs_pos samples _ (connMedian_mem samples hdne)
    unfold deriveConnectivityGap
    rw [if_neg (by omega), if_neg hdne, if_neg (by omega)]
    simp only [minuteNs, hourNs] at *
    split_ifs <;> omega

/-- A last-known connectivity sample for the C7 witness. -/
def w7conn : ConnectivityStatus := ⟨"dns", true, 5, "", 50⟩

/-- A sorted two-sample series with distinct times for the C7 witness. -/
def w7samples : List ConnectivityStatus := [w7conn, ⟨"dns", true, 5, "", 50 + minuteNs⟩]

theorem C7_connectivity_holdover_witness :
    (connBucketStep (5 * minuteNs) ⟨[], some w7conn⟩ 100 200).1.className =
      (if (100 : Int) - w7conn.checkedAt ≤ 5 * minuteNs then (connectivityClass w7conn).1
       else "state-missing") ∧
    deriveConnectivityGap w7samples =
      max minuteNs (min (2 * hourNs) (connMedian w7samples * 2)) :=
  ⟨((C7_connectivity_holdover (5 * minuteNs) 100 200 ⟨[], some w7conn⟩ w7samples
      (by decide)).1 rfl).2 w7conn rfl,
   (C7_connectivity_holdover (5 * minuteNs) 100 200 ⟨[], some w7conn⟩ w7samples
      (by decide)).2.2.2 (by unfold noTwoDistinct; decide)⟩

/-! ## Service timelines (`BuildServiceTimelines` and `buildTimeline`) -/

/-- Go `collectBucketSamples`: advance the cursor past samples before the
bucket, then take those before the bucket end; returns the chunk and the
remaining (cursor) suffix. -/
def collectBucketSamples (remaining : List Sample) (start end_ : Int) :
    List Sample × List Sample :=
  let r := remaining.dropWhile (fun s => decide (s.timestamp < start))
  let chunk := r.takeWhile (fun s => decide (s.timestamp < end_))
  (chunk, r.drop chunk.length)

/-- Comparator sorting samples by timestamp ascending. -/
def sampleLe (a b : Sample) : Bool := !(decide (b.timestamp < a.timestamp))

/-- One iteration of `buildTimeline`'s bucket loop. -/
def timelineStep (start end_ bd : Int) (points : Nat)
    (acc : List TimelinePoint × List Sample) (i : Nat) :
    List TimelinePoint × List Sample :=
  let bucketStart := start + (i : Int) * bd
  let bucketEnd := if i = points - 1 then end_ else bucketStart + bd
  let cb := collectBucketSamples acc.2 bucketStart bucketEnd
  let eb := evaluateBucket cb.1
  (acc.1 ++ [⟨eb.1, eb.2.1, bucketStart, bucketEnd, eb.2.2⟩], cb.2)

/-- Go `buildTimeline`: one classified point per bucket, `points` buckets,
the last bucket stretched to `end`. -/
def buildTimeline (samples : List Sample) (start end_ : Int) (points : Nat) :
    List TimelinePoint :=
  if points = 0 then []
  else
    let sorted := if 1 < samples.length then goSortBy sampleLe samples else samples
    let bd0 := (end_ - start) / (points : Int)
    let bd := if bd0 ≤ 0 then minuteNs else bd0
    ((List.range points).foldl (timelineStep start end_ bd points) ([], sorted)).1

/-- Go `registerName` inside `BuildServiceTimelines`. -/
def registerName (m : List (String × String)) (id name : String) :
    List (String × String) :=
  if id = "" then m
  else
    let name := if name = "" then id else name
    match List.lookup id m with
    | none => setKey m id name
    | some existing => if existing = "" then setKey m id name else m

/-- Appending one sample to the per-service history map. -/
def addSampleMap (m : List (String × List Sample)) (id : String) (s : Sample) :
    List (String × List Sample) :=
  setKey m id (((List.lookup id m).getD []) ++ [s])

/-- Go `addSample` applied to one check (skips empty ids, registers the
name, appends the sample). -/
def checkStep (ts : Int) (st : List (String × String) × List (String × List Sample))
    (c : CheckResult) : List (String × String) × List (String × List Sample) :=
  if c.id = "" then st
  else (registerName st.1 c.id c.name,
        addSampleMap st.2 c.id ⟨ts, c.ok, c.state, c.error.getD ""⟩)

/-- The per-entry loop of `BuildServiceTimelines`. -/
def entryStep (st : List (String × String) × List (String × List Sample))
    (e : StatusEntry) : List (String × String) × List (String × List Sample) :=
  e.checks.foldl (checkStep e.timestamp) st

/-- Name/history maps after scanning all entries. -/
def collectMaps (entries : List StatusEntry) (nm0 : List (String × String)) :
    List (String × String) × List (String × List Sample) :=
  entries.foldl entryStep (nm0, [])

/-- Names seeded from the configured target list. -/
def seedNames (targets : List Target) : List (String × String) :=
  targets.foldl (fun m t => registerName m t.id t.name) []

/-- Names additionally registered from the latest entry. -/
def finalNames (latest : Option StatusEntry) (nm : List (String × String)) :
    List (String × String) :=
  match latest with
  | some l => l.checks.foldl (fun m c => registerName m c.id c.name) nm
  | none => nm

/-- The effective point count: `points`, or 80 when `points ≤ 0`. -/
def adjPoints (points : Int) : Nat :=
  if points ≤ 0 then DefaultTimelinePoints else points.toNat

/-- The effective window end: pushed one minute past `start` when the
window is empty. -/
def adjEnd (start end_ : Int) : Int :=
  if ¬ start < end_ then start + minuteNs else end_

/-- Comparator ordering service ids by lower-cased display name. -/
def nameLe (nm : List (String × String)) (a b : String) : Bool :=
  !(decide (lowerStr ((List.lookup b nm).getD "") < lowerStr ((List.lookup a nm).getD "")))

/-- Go `BuildServiceTimelines`. -/
def BuildServiceTimelines (entries : List StatusEntry) (latest : Option StatusEntry)
    (targets : List Target) (start end_ : Int) (points : Int) : List ServiceTimeline :=
  let pts := adjPoints points
  let end2 := adjEnd start end_
  let st := collectMaps entries (seedNames targets)
  let nm := finalNames latest st.1
  if nm = [] then []
  else
    (goSortBy (nameLe nm) (nm.map Prod.fst)).map
      (fun id => ⟨id, (List.lookup id nm).getD "",
        buildTimeline ((List.lookup id st.2).getD []) start end2 pts⟩)

theorem timeline_fold_length (start end_ bd : Int) (points : Nat) :
    ∀ (l : List Nat) (acc : List TimelinePoint × List Sample),
      ((l.foldl (timelineStep start end_ bd points) acc).1).length =
        acc.1.length + l.length := by
  intro l
  induction l with
  | nil => intro acc; simp
  | cons i is ih =>
      intro acc
      rw [List.foldl_cons, ih]
      simp [timelineStep]
      omega

theorem buildTimeline_length (samples : List Sample) (start end_ : Int) (points : Nat) :
    (buildTimeline samples start end_ points).length = points := by
  unfold buildTimeline
  by_cases h : points = 0
  · simp [h]
  · rw [if_neg h]
    dsimp only
    rw [timeline_fold_length]
    simp

theorem lookup_isSome_registerName (m : List (String × String)) (id name id0 : String)
    (h : (List.lookup id0 m).isSome = true) :
    (List.lookup id0 (registerName m id name)).isSome = true := by
  unfold registerName
  by_cases h1 : id = ""
  · simpa [h1] using h
  · rw [if_neg h1]
    dsimp only
    cases hl : List.lookup id m with
    | none =>
        simp only [hl]
        by_cases he : id0 = id
        · subst he; rw [lookup_setKey_self]; rfl
        · rw [lookup_setKey_ne _ _ _ _ he]; exact h
    | some existing =>
        simp only [hl]
        by_cases h2 : existing = ""
        · rw [if_pos h2]
          by_cases he : id0 = id
          · subst he; rw [lookup_setKey_self]; rfl
          · rw [lookup_setKey_ne _ _ _ _ he]; exact h
        · rw [if_neg h2]; exact h

theorem lookup_isSome_registerName_self (m : List (String × String)) (id name : String)
    (hid : id ≠ "") :
    (List.lookup id (registerName m id name)).isSome = true := by
  unfold registerName
  rw [if_neg hid]
  dsimp only
  cases hl : List.lookup id m with
  | none => simp only [hl]; rw [lookup_setKey_self]; rfl
  | some existing =>
      simp only [hl]
      by_cases h2 : existing = ""
      · rw [if_pos h2, lookup_setKey_self]; rfl
      · rw [if_neg h2, hl]; rfl

theorem lookup_isSome_registerName_fold (id0 : String) (cs : List CheckResult) :
    ∀ (nm : List (String × String)), (List.lookup id0 nm).isSome = true →
      (List.lookup id0 (cs.foldl (fun m c => registerName m c.id c.name) nm)).isSome = true := by
  induction cs with
  | nil => intro nm h; simpa using h
  | cons c cs ih =>
      intro nm h
      rw [List.foldl_cons]
      exact ih _ (lookup_isSome_registerName nm c.id c.name id0 h)

theorem seedNames_fold_isSome (t : Target) (hid : t.id ≠ "") :
    ∀ (ts : List Target) (m : List (String × String)),
      t ∈ ts ∨ (List.lookup t.id m).isSome = true →
      (List.lookup t.id (ts.foldl (fun m t => registerName m t.id t.name) m)).isSome = true := by
  intro ts
  induction ts with
  | nil =>
      intro m h
      rcases h with h | h
      · simp at h
      · simpa using h
  | cons u us ih =>
      intro m h
      rw [List.foldl_cons]
      refine ih (registerName m u.id u.name) ?_
      rcases h with h | h
      · rcases List.mem_cons.mp h with h | h
        · subst h
          exact Or.inr (lookup_isSome_registerName_self m t.id t.name hid)
        · exact Or.inl h
      · exact Or.inr (lookup_isSome_registerName m u.id u.name t.id h)

theorem lookup_isSome_checkStep (ts : Int)
    (st : List (String × String) × List (String × List Sample)) (c : CheckResult)
    (id0 : String) (h : (List.lookup id0 st.1).isSome = true) :
    (List.lookup id0 (checkStep ts st c).1).isSome = true := by
  unfold checkStep
  split_ifs with h1
  · exact h
  · exact lookup_isSome_registerName st.1 c.id c.name id0 h

theorem lookup_isSome_entryStep (st : List (String × String) × List (String × List Sample))
    (e : StatusEntry) (id0 : String) (h : (List.lookup id0 st.1).isSome = true) :
    (List.lookup id0 (entryStep st e).1).isSome = true := by
  unfold entryStep
  induction e.checks generalizing st with
  | nil => simpa using h
  | cons c cs ih =>
      rw [List.foldl_cons]
      exact ih _ (lookup_isSome_checkStep e.timestamp st c id0 h)

theorem lookup_isSome_collectMaps (entries : List StatusEntry)
    (nm0 : List (String × String)) (id0 : String)
    (h : (List.lookup id0 nm0).isSome = true) :
    (List.lookup id0 (collectMaps entries nm0).1).isSome = true := by
  unfold collectMaps
  suffices hgen : ∀ (es : List StatusEntry)
      (st : List (String × String) × List (String × List Sample)),
      (List.lookup id0 st.1).isSome = true →
      (List.lookup id0 (es.foldl entryStep st).1).isSome = true by
    exact hgen entries (nm0, []) h
  intro es
  induction es with
  | nil => intro st h; simpa using h
  | cons e es ih =>
      intro st h
      rw [List.foldl_cons]
      exact ih _ (lookup_isSome_entryStep st e id0 h)

theorem lookup_isSome_finalNames (latest : Option StatusEntry)
    (nm : List (String × String)) (id0 : String)
    (h : (List.lookup id0 nm).isSome = true) :
    (List.lookup id0 (finalNames latest nm)).isSome = true := by
  unfold finalNames
  cases latest with
  | none => simpa using h
  | some l => exact lookup_isSome_registerName_fold id0 l.checks nm h

theorem mem_map_fst_of_lookup_isSome {β : Type} (m : List (String × β)) (id : String)
    (h : (List.lookup id m).isSome = true) : id ∈ m.map Prod.fst := by
  induction m with
  | nil => simp [List.lookup] at h
  | cons kv rest ih =>
      obtain ⟨k, v⟩ := kv
      rw [lookup_cons_pair] at h
      by_cases he : id = k
      · simp [he]
      · rw [if_neg he] at h
        exact List.mem_cons_of_mem _ (ih h)

theorem mem_map_fst_setKey {β : Type} (m : List (String × β)) (id : String) (v : β)
    (k : String) (h : k ∈ (setKey m id v).map Prod.fst) :
    k ∈ m.map Prod.fst ∨ k = id := by
  induction m with
  | nil =>
      simp [setKey] at h
      exact Or.inr h
  | cons kv rest ih =>
      obtain ⟨k0, v0⟩ := kv
      simp only [setKey] at h
      split_ifs at h with h0
      · simp only [List.map_cons, List.mem_cons] at h ⊢
        rcases h with h | h
        · subst h0; exact Or.inl (Or.inl h)
        · exact Or.inl (Or.inr h)
      · simp only [List.map_cons, List.mem_cons] at h ⊢
        rcases h with h | h
        · exact Or.inl (Or.inl h)
        · rcases ih h with h2 | h2
          · exact Or.inl (Or.inr h2)
          · exact Or.inr h2

theorem keysNE_registerName (m : List (String × String)) (id name : String)
    (h : ∀ k ∈ m.map Prod.fst, k ≠ "") :
    ∀ k ∈ (registerName m id name).map Prod.fst, k ≠ "" := by
  intro k hk
  unfold registerName at hk
  by_cases h1 : id = ""
  · rw [if_pos h1] at hk
    exact h k hk
  · rw [if_neg h1] at hk
    dsimp only at hk
    cases hl : List.lookup id m with
    | none =>
        simp only [hl] at hk
        rcases mem_map_fst_setKey _ _ _ _ hk with h2 | h2
        · exact h k h2
        · rw [h2]; exact h1
    | some existing =>
        simp only [hl] at hk
        by_cases h2 : existing = ""
        · rw [if_pos h2] at hk
          rcases mem_map_fst_setKey _ _ _ _ hk with h3 | h3
          · exact h k h3
          · rw [h3]; exact h1
        · rw [if_neg h2] at hk
          exact h k hk

theorem keysNE_registerName_fold (cs : List CheckResult) :
    ∀ (nm : List (String × String)), (∀ k ∈ nm.map Prod.fst, k ≠ "") →
      ∀ k ∈ (cs.foldl (fun m c => registerName m c.id c.name) nm).map Prod.fst, k ≠ "" := by
  induction cs with
  | nil => intro nm h; exact h
  | cons c cs ih =>
      intro nm h
      rw [List.foldl_cons]
      exact ih _ (keysNE_registerName nm c.id c.name h)

theorem keysNE_seedNames (targets : List Target) :
    ∀ k ∈ (seedNames targets).map Prod.fst, k ≠ "" := by
  unfold seedNames
  suffices hgen : ∀ (ts : List Target) (m : List (String × String)),
      (∀ k ∈ m.map Prod.fst, k ≠ "") →
      ∀ k ∈ (ts.foldl (fun m t => registerName m t.id t.name) m).map Prod.fst, k ≠ "" by
    exact hgen targets [] (by simp)
  intro ts
  induction ts with
  | nil => intro m h; exact h
  | cons t ts ih =>
      intro m h
      rw [List.foldl_cons]
      exact ih _ (keysNE_registerName m t.id t.name h)

theorem keysNE_collectMaps (entries : List StatusEntry) (nm0 : List (String × String))
    (h : ∀ k ∈ nm0.map Prod.fst, k ≠ "") :
    ∀ k ∈ (collectMaps entries nm0).1.map Prod.fst, k ≠ "" := by
  unfold collectMaps
  suffices hgen : ∀ (es : List StatusEntry)
      (st : List (String × String) × List (String × List Sample)),
      (∀ k ∈ st.1.map Prod.fst, k ≠ "") →
      ∀ k ∈ (es.foldl entryStep st).1.map Prod.fst, k ≠ "" by
    exact hgen entries (nm0, []) h
  intro es
  induction es with
  | nil => intro st h; exact h
  | cons e es ih =>
      intro st h
      rw [List.foldl_cons]
      refine ih _ ?_
      unfold entryStep
      induction e.checks generalizing st with
      | nil => exact h
      | cons c cs ihc =>
          rw [List.foldl_cons]
          refine ihc _ ?_
          unfold checkStep
          split_ifs with h1
          · exact h
          · exact keysNE_registerName st.1 c.id c.name h

theorem keysNE_finalNames (latest : Option StatusEntry) (nm : List (String × String))
    (h : ∀ k ∈ nm.map Prod.fst, k ≠ "") :
    ∀ k ∈ (finalNames latest nm).map Prod.fst, k ≠ "" := by
  unfold finalNames
  cases latest with
  | none => exact h
  | some l => exact keysNE_registerName_fold l.checks nm h

theorem checks_fold_filter (ts : Int) (cs : List CheckResult) :
    ∀ (st : List (String × String) × List (String × List Sample)),
      cs.foldl (checkStep ts) st =
        (cs.filter (fun c => !(decide (c.id = "")))).foldl (checkStep ts) st := by
  induction cs with
  | nil => intro st; rfl
  | cons c cs ih =>
      intro st
      by_cases h : c.id = ""
      · rw [List.foldl_cons, List.filter_cons_of_neg (by simp [h])]
        rw [show checkStep ts st c = st from if_pos h]
        exact ih st
      · rw [List.foldl_cons, List.filter_cons_of_pos (by simp [h]), List.foldl_cons]
        exact ih (checkStep ts st c)

theorem collectMaps_filter_empty (entries : List StatusEntry)
    (nm0 : List (String × String)) :
    collectMaps entries nm0 =
      collectMaps (entries.map (fun e =>
        { e with checks := e.checks.filter (fun c => !(decide (c.id = ""))) })) nm0 := by
  unfold collectMaps
  suffices hgen : ∀ (es : List StatusEntry)
      (st : List (String × String) × List (String × List Sample)),
      es.foldl entryStep st =
        (es.map (fun e =>
          { e with checks := e.checks.filter (fun c => !(decide (c.id = ""))) })).foldl
          entryStep st by
    exact hgen entries (nm0, [])
  intro es
  induction es with
  | nil => intro st; rfl
  | cons e es ih =>
      intro st
      rw [List.map_cons, List.foldl_cons, List.foldl_cons]
      have hstep : entryStep st e =
          entryStep st { e with checks := e.checks.filter (fun c => !(decide (c.id = ""))) } := by
        unfold entryStep
        exact checks_fold_filter e.timestamp e.checks st
      rw [← hstep]
      exact ih (entryStep st e)

/-- C10: every produced service timeline has exactly `points` buckets when
`points > 0` and 80 otherwise — including for configured targets with no
samples, which always yield a timeline; no timeline is keyed by the empty
id, and checks with an empty id contribute nothing (filtering them away
leaves the result unchanged). -/
theorem C10_timeline_shape (entries : List StatusEntry) (latest : Option StatusEntry)
    (targets : List Target) (start end_ : Int) (points : Int) :
    (∀ tl ∈ BuildServiceTimelines entries latest targets start end_ points,
      tl.timeline.length = if 0 < points then points.toNat else DefaultTimelinePoints) ∧
    (∀ t ∈ targets, t.id ≠ "" →
      ∃ tl ∈ BuildServiceTimelines entries latest targets start end_ points,
        tl.serviceID = t.id) ∧
    (∀ tl ∈ BuildServiceTimelines entries latest targets start end_ points,
      tl.serviceID ≠ "") ∧
    BuildServiceTimelines entries latest targets start end_ points =
      BuildServiceTimelines (entries.map (fun e =>
        { e with checks := e.checks.filter (fun c => !(decide (c.id = ""))) }))
        latest targets start end_ points := by
  refine ⟨?_, ?_, ?_, ?_⟩
  · intro tl htl
    simp only [BuildServiceTimelines] at htl
    split_ifs at htl with hnm
    · simp at htl
    · rcases List.mem_map.mp htl with ⟨id, _, hid2⟩
      rw [← hid2]
      simp only [buildTimeline_length, adjPoints]
      split_ifs with h1 h2 <;> omega
  · intro t ht hid
    have hsome : (List.lookup t.id
        (finalNames latest (collectMaps entries (seedNames targets)).1)).isSome = true := by
      refine lookup_isSome_finalNames latest _ t.id ?_
      refine lookup_isSome_collectMaps entries _ t.id ?_
      unfold seedNames
      exact seedNames_fold_isSome t hid targets [] (Or.inl ht)
    have hmem : t.id ∈ (finalNames latest (collectMaps entries (seedNames targets)).1).map
        Prod.fst := mem_map_fst_of_lookup_isSome _ t.id hsome
    have hne : finalNames latest (collectMaps entries (seedNames targets)).1 ≠ [] := by
      intro hcontra
      rw [hcontra] at hmem
      simp at hmem
    simp only [BuildServiceTimelines]
    rw [if_neg hne]
    refine ⟨_, List.mem_map_of_mem _ ((mem_goSortBy _ _ _).mpr hmem), rfl⟩
  · intro tl htl
    simp only [BuildServiceTimelines] at htl
    split_ifs at htl with hnm
    · simp at htl
    · rcases List.mem_map.mp htl with ⟨id, hid, hid2⟩
      rw [← hid2]
      have hkeys := keysNE_finalNames latest (collectMaps entries (seedNames targets)).1
        (keysNE_collectMaps entries (seedNames targets) (keysNE_seedNames targets))
      exact hkeys id ((mem_goSortBy _ _ _).mp hid)
  · simp only [BuildServiceTimelines]
    rw [← collectMaps_filter_empty]

/-- A target and a history with an empty-id check, instantiating C10. -/
def w10targets : List Target := [⟨"svc", "Service"⟩]

/-- One entry whose second check has an empty id (it must be ignored). -/
def w10entries : List StatusEntry :=
  [⟨0, [⟨"svc", "Service", true, "active", none⟩, ⟨"", "ghost", false, "failed", none⟩]⟩]

theorem C10_timeline_shape_witness :
    (∃ tl ∈ BuildServiceTimelines w10entries none w10targets 0 minuteNs 3,
      tl.serviceID = "svc") ∧
    BuildServiceTimelines w10entries none w10targets 0 minuteNs 3 =
      BuildServiceTimelines (w10entries.map (fun e =>
        { e with checks := e.checks.filter (fun c => !(decide (c.id = ""))) }))
        none w10targets 0 minuteNs 3 :=
  ⟨(C10_timeline_shape w10entries none w10targets 0 minuteNs 3).2.1 ⟨"svc", "Service"⟩
      (List.Mem.head _) (by decide),
   (C10_timeline_shape w10entries none w10targets 0 minuteNs 3).2.2.2⟩

/-! ## Overview selector (`internal/server/overview.go`) -/

/-- Go `overviewServiceEntry`. -/
structure OverviewServiceEntry where
  id : String
  name : String
  timeline : List TimelinePoint
  order : Nat
  hasOrder : Bool
  deriving Repr, DecidableEq

/-- Go `overviewNodeGroup`. -/
structure OverviewNodeGroup where
  nodeID : String
  nodeName : String
  isLocal : Bool
  services : List OverviewServiceEntry
  deriving Repr, DecidableEq

/-- One pass of `pickServicesRoundRobin`'s inner loop: take the next entry
from each group in order, stopping as soon as the limit is reached; returns
the remaining group contents, the grown accumulator and whether any entry
was taken. -/
def sweepOnce (limit : Nat) :
    List (List OverviewServiceEntry) → List OverviewServiceEntry →
      List (List OverviewServiceEntry) × List OverviewServiceEntry × Bool
  | [], acc => ([], acc, false)
  | g :: gs, acc =>
    match g with
    | [] =>
        let r := sweepOnce limit gs acc
        ([] :: r.1, r.2.1, r.2.2)
    | x :: rest =>
        let acc2 := acc ++ [x]
        if limit ≤ acc2.length then (rest :: gs, acc2, true)
        else
          let r := sweepOnce limit gs acc2
          (rest :: r.1, r.2.1, true)

/-- The outer `for len(result) < limit` loop. The fuel bounds the number of
sweeps; `pickServicesRoundRobin` passes `limit` as fuel, which is enough
because every progressing sweep grows the accumulator, so fuel exhaustion
can only happen once the limit is already reached — exactly when the Go
loop stops too. -/
def rrLoop (fuel limit : Nat) (gs : List (List OverviewServiceEntry))
    (acc : List OverviewServiceEntry) : List OverviewServiceEntry :=
  match fuel with
  | 0 => acc
  | fuel + 1 =>
    if limit ≤ acc.length then acc
    else
      let r := sweepOnce limit gs acc
      if r.2.2 then rrLoop fuel limit r.1 r.2.1 else r.2.1

/-- Sum of the group sizes (`total` in the Go code). -/
def totalLen (gs : List (List OverviewServiceEntry)) : Nat :=
  (gs.map List.length).sum

/-- The clamped limit: `total` when the requested limit is non-positive or
exceeds the total, else the requested limit. -/
def pickLimit (total : Nat) (limit : Int) : Nat :=
  if limit ≤ 0 ∨ (total : Int) < limit then total else limit.toNat

/-- Go `pickServicesRoundRobin`. -/
def pickServicesRoundRobin (groups : List OverviewNodeGroup) (limit : Int) :
    List OverviewServiceEntry :=
  let gs := groups.map OverviewNodeGroup.services
  let total := totalLen gs
  if total = 0 then []
  else rrLoop (pickLimit total limit) (pickLimit total limit) gs []

/-- Number of groups that still hold at least one entry. -/
def nonEmptyGroups (groups : List OverviewNodeGroup) : Nat :=
  (groups.map OverviewNodeGroup.services).countP (fun g => !g.isEmpty)

/-- Go's comparator inside `buildServiceGroups`'s final `sort.SliceStable`:
local first, then case-insensitive node name, ties by node id. -/
def groupLess (a b : OverviewNodeGroup) : Bool :=
  if a.isLocal == b.isLocal then
    if lowerStr a.nodeName == lowerStr b.nodeName then decide (a.nodeID < b.nodeID)
    else decide (lowerStr a.nodeName < lowerStr b.nodeName)
  else a.isLocal

/-- The stable sort of node groups (lines 269-279 of overview.go). -/
def sortGroups (gs : List OverviewNodeGroup) : List OverviewNodeGroup :=
  goSortBy (fun a b => !(groupLess b a)) gs

theorem sweepOnce_perm (limit : Nat) :
    ∀ (gs : List (List OverviewServiceEntry)) (acc : List OverviewServiceEntry),
      ((sweepOnce limit gs acc).2.1 ++ (sweepOnce limit gs acc).1.join).Perm
        (acc ++ gs.join) := by
  intro gs
  induction gs with
  | nil => intro acc; simp [sweepOnce]
  | cons g gs ih =>
      intro acc
      match g with
      | [] =>
          simpa [sweepOnce] using ih acc
      | x :: rest =>
          simp only [sweepOnce]
          split_ifs with hlim
          · simp only [List.join_cons]
            have he : (acc ++ [x]) ++ (rest ++ gs.join) = acc ++ ((x :: rest) ++ gs.join) := by
              simp
            rw [he]
          · have h1 := ih (acc ++ [x])
            simp only [List.join_cons]
            refine List.Perm.trans (List.Perm.append_left _
              (@List.perm_append_comm _ rest ((sweepOnce limit gs (acc ++ [x])).1.join))) ?_
            rw [← List.append_assoc]
            refine List.Perm.trans (h1.append_right rest) ?_
            rw [List.append_assoc]
            refine List.Perm.trans (List.Perm.append_left _
              (@List.perm_append_comm _ gs.join rest)) ?_
            rw [show (acc ++ [x]) ++ (rest ++ gs.join) = acc ++ ((x :: rest) ++ gs.join) by simp]

theorem sweepOnce_length (limit : Nat) :
    ∀ (gs : List (List OverviewServiceEntry)) (acc : List OverviewServiceEntry),
      acc.length < limit →
      (sweepOnce limit gs acc).2.1.length =
        min limit (acc.length + gs.countP (fun g => !g.isEmpty)) := by
  intro gs
  induction gs with
  | nil =>
      intro acc h
      simp only [sweepOnce, List.countP_nil]
      omega
  | cons g gs ih =>
      intro acc h
      match g with
      | [] =>
          simp only [sweepOnce, List.countP_cons]
          rw [ih acc h]
          simp
      | x :: rest =>
          by_cases hlim : limit ≤ (acc ++ [x]).length
          · rw [show sweepOnce limit ((x :: rest) :: gs) acc = (rest :: gs, acc ++ [x], true)
              from by simp only [sweepOnce]; rw [if_pos hlim]]
            simp only [List.countP_cons, List.isEmpty_cons, Bool.not_false, if_true,
              List.length_append, List.length_singleton]
            simp only [List.length_append, List.length_singleton] at hlim
            omega
          · rw [show sweepOnce limit ((x :: rest) :: gs) acc =
                (rest :: (sweepOnce limit gs (acc ++ [x])).1,
                 (sweepOnce limit gs (acc ++ [x])).2.1, true)
              from by simp only [sweepOnce]; rw [if_neg hlim]]
            simp only [List.length_append, List.length_singleton] at hlim
            have hlen2 : (acc ++ [x]).length < limit := by
              simp only [List.length_append, List.length_singleton]
              omega
            rw [show (rest :: (sweepOnce limit gs (acc ++ [x])).1,
                 (sweepOnce limit gs (acc ++ [x])).2.1, true).2.1 =
                (sweepOnce limit gs (acc ++ [x])).2.1 from rfl]
            rw [ih (acc ++ [x]) hlen2]
            simp only [List.countP_cons, List.isEmpty_cons, Bool.not_false, if_true,
              List.length_append, List.length_singleton]
            omega

theorem sweepOnce_prog (limit : Nat) :
    ∀ (gs : List (List OverviewServiceEntry)) (acc : List OverviewServiceEntry),
      (sweepOnce limit gs acc).2.2 = gs.any (fun g => !g.isEmpty) := by
  intro gs
  induction gs with
  | nil => intro acc; simp [sweepOnce]
  | cons g gs ih =>
      intro acc
      match g with
      | [] => simp [sweepOnce, ih acc]
      | x :: rest =>
          simp only [sweepOnce]
          split_ifs with hlim <;> simp

theorem sweepOnce_prefix (limit : Nat) :
    ∀ (gs : List (List OverviewServiceEntry)) (acc : List OverviewServiceEntry),
      ∃ t, (sweepOnce limit gs acc).2.1 = acc ++ t := by
  intro gs
  induction gs with
  | nil => intro acc; exact ⟨[], by simp [sweepOnce]⟩
  | cons g gs ih =>
      intro acc
      match g with
      | [] => simpa [sweepOnce] using ih acc
      | x :: rest =>
          simp only [sweepOnce]
          split_ifs with hlim
          · exact ⟨[x], rfl⟩
          · obtain ⟨t, ht⟩ := ih (acc ++ [x])
            exact ⟨x :: t, by simp [ht]⟩

theorem sweepOnce_heads (limit : Nat) :
    ∀ (gs : List (List OverviewServiceEntry)) (acc : List OverviewServiceEntry),
      acc.length + gs.countP (fun g => !g.isEmpty) ≤ limit →
      ∀ g ∈ gs, g ≠ [] → ∃ x, g.head? = some x ∧ x ∈ (sweepOnce limit gs acc).2.1 := by
  intro gs
  induction gs with
  | nil => intro acc _ g hg; simp at hg
  | cons g0 gs ih =>
      intro acc hcount g hg hne
      match g0 with
      | [] =>
          rcases List.mem_cons.mp hg with h | h
          · subst h; exact absurd rfl hne
          · rw [List.countP_cons, if_neg (by simp : ¬ (!List.isEmpty
              ([] : List OverviewServiceEntry)) = true)] at hcount
            simpa [sweepOnce] using ih acc (by omega) g h hne
      | x :: rest =>
          rw [List.countP_cons, if_pos (by simp : (!(x :: rest).isEmpty) = true)] at hcount
          by_cases hlim : limit ≤ (acc ++ [x]).length
          · rw [show sweepOnce limit ((x :: rest) :: gs) acc = (rest :: gs, acc ++ [x], true)
              from by simp only [sweepOnce]; rw [if_pos hlim]]
            simp only [List.length_append, List.length_singleton] at hlim
            have hc0 : gs.countP (fun g => !g.isEmpty) = 0 := by omega
            rcases List.mem_cons.mp hg with h | h
            · subst h
              exact ⟨x, rfl, by simp⟩
            · exfalso
              have : 0 < gs.countP (fun g => !g.isEmpty) :=
                List.countP_pos.mpr ⟨g, h, by
                  cases g with
                  | nil => exact absurd rfl hne
                  | cons a as => simp⟩
              omega
          · rw [show sweepOnce limit ((x :: rest) :: gs) acc =
                (rest :: (sweepOnce limit gs (acc ++ [x])).1,
                 (sweepOnce limit gs (acc ++ [x])).2.1, true)
              from by simp only [sweepOnce]; rw [if_neg hlim]]
            rcases List.mem_cons.mp hg with h | h
            · subst h
              refine ⟨x, rfl, ?_⟩
              obtain ⟨t, ht⟩ := sweepOnce_prefix limit gs (acc ++ [x])
              rw [show (rest :: (sweepOnce limit gs (acc ++ [x])).1,
                   (sweepOnce limit gs (acc ++ [x])).2.1, true).2.1 =
                  (sweepOnce limit gs (acc ++ [x])).2.1 from rfl, ht]
              exact List.mem_append_left _ (List.mem_append_right _ (List.Mem.head _))
            · have hcount2 : (acc ++ [x]).length + gs.countP (fun g => !g.isEmpty) ≤ limit := by
                simp only [List.length_append, List.length_singleton]
                omega
              exact ih (acc ++ [x]) hcount2 g h hne

theorem totalLen_eq_join_length (gs : List (List OverviewServiceEntry)) :
    totalLen gs = gs.join.length := by
  induction gs with
  | nil => simp [totalLen]
  | cons g gs ih =>
      simp only [totalLen, List.map_cons, List.sum_cons, List.join_cons, List.length_append]
      rw [← ih]
      rfl

theorem totalLen_zero_of_no_nonempty (gs : List (List OverviewServiceEntry))
    (h : gs.countP (fun g => !g.isEmpty) = 0) : totalLen gs = 0 := by
  unfold totalLen
  induction gs with
  | nil => simp
  | cons g gs ih =>
      simp only [List.countP_cons] at h
      have hg : (!g.isEmpty) = false := by
        by_contra hc
        simp only [Bool.not_eq_false] at hc
        rw [hc, if_pos rfl] at h
        omega
      have hgs : gs.countP (fun g => !g.isEmpty) = 0 := by
        rw [hg] at h
        simpa using h
      have : g = [] := by
        simpa [List.isEmpty_iff] using hg
      simp [this, ih hgs]

theorem rrLoop_prefix (limit : Nat) :
    ∀ (fuel : Nat) (gs : List (List OverviewServiceEntry)) (acc : List OverviewServiceEntry),
      ∃ t, rrLoop fuel limit gs acc = acc ++ t := by
  intro fuel
  induction fuel with
  | zero => intro gs acc; exact ⟨[], by simp [rrLoop]⟩
  | succ fuel ih =>
      intro gs acc
      simp only [rrLoop]
      split_ifs with h1 h2
      · exact ⟨[], by simp⟩
      · obtain ⟨t1, ht1⟩ := sweepOnce_prefix limit gs acc
        obtain ⟨t2, ht2⟩ := ih (sweepOnce limit gs acc).1 (sweepOnce limit gs acc).2.1
        exact ⟨t1 ++ t2, by rw [ht2, ht1, List.append_assoc]⟩
      · obtain ⟨t1, ht1⟩ := sweepOnce_prefix limit gs acc
        exact ⟨t1, ht1⟩

theorem rrLoop_length (limit : Nat) :
    ∀ (fuel : Nat) (gs : List (List OverviewServiceEntry)) (acc : List OverviewServiceEntry),
      acc.length ≤ limit → limit ≤ fuel + acc.length →
      (rrLoop fuel limit gs acc).length = min limit (acc.length + totalLen gs) := by
  intro fuel
  induction fuel with
  | zero =>
      intro gs acc h1 h2
      simp only [rrLoop]
      omega
  | succ fuel ih =>
      intro gs acc h1 h2
      simp only [rrLoop]
      split_ifs with hle hprog
      · omega
      · have hany : gs.any (fun g => !g.isEmpty) = true := by
          rw [← sweepOnce_prog limit gs acc]; exact hprog
        have hlen := sweepOnce_length limit gs acc (by omega)
        have hcons : (sweepOnce limit gs acc).2.1.length +
            totalLen (sweepOnce limit gs acc).1 = acc.length + totalLen gs := by
          have hp := (sweepOnce_perm limit gs acc).length_eq
          simp only [List.length_append] at hp
          rw [totalLen_eq_join_length, totalLen_eq_join_length]
          omega
        have hcpos : 0 < gs.countP (fun g => !g.isEmpty) := by
          rw [List.any_eq_true] at hany
          obtain ⟨g, hg, hgne⟩ := hany
          exact List.countP_pos.mpr ⟨g, hg, hgne⟩
        have hgrow : acc.length + 1 ≤ (sweepOnce limit gs acc).2.1.length := by omega
        rw [ih (sweepOnce limit gs acc).1 (sweepOnce limit gs acc).2.1
          (by omega) (by omega)]
        omega
      · have hany : gs.any (fun g => !g.isEmpty) = false := by
          rw [← sweepOnce_prog limit gs acc]
          simpa using hprog
        have hc0 : gs.countP (fun g => !g.isEmpty) = 0 := by
          rw [List.any_eq_false] at hany
          refine List.countP_eq_zero.mpr ?_
          intro a ha
          simpa using hany a ha
        have ht0 := totalLen_zero_of_no_nonempty gs hc0
        have hlen := sweepOnce_length limit gs acc (by omega)
        rw [hlen]
        omega

theorem rrLoop_perm (limit : Nat) :
    ∀ (fuel : Nat) (gs : List (List OverviewServiceEntry)) (acc : List OverviewServiceEntry),
      ∃ gs2 : List (List OverviewServiceEntry),
        (rrLoop fuel limit gs acc ++ gs2.join).Perm (acc ++ gs.join) := by
  intro fuel
  induction fuel with
  | zero => intro gs acc; exact ⟨gs, by simp [rrLoop]⟩
  | succ fuel ih =>
      intro gs acc
      simp only [rrLoop]
      split_ifs with h1 h2
      · exact ⟨gs, List.Perm.refl _⟩
      · obtain ⟨gs2, hp⟩ := ih (sweepOnce limit gs acc).1 (sweepOnce limit gs acc).2.1
        exact ⟨gs2, hp.trans (sweepOnce_perm limit gs acc)⟩
      · exact ⟨(sweepOnce limit gs acc).1, sweepOnce_perm limit gs acc⟩

theorem countNE_le_totalLen (gs : List (List OverviewServiceEntry)) :
    gs.countP (fun g => !g.isEmpty) ≤ totalLen gs := by
  induction gs with
  | nil => simp [totalLen]
  | cons g gs ih =>
      rw [List.countP_cons]
      have htl : totalLen (g :: gs) = g.length + totalLen gs := by
        simp only [totalLen, List.map_cons, List.sum_cons]
      rw [htl]
      match g with
      | [] =>
          rw [if_neg (by simp)]
          omega
      | x :: rest =>
          rw [if_pos (by simp)]
          simp only [List.length_cons]
          omega

theorem groupLess_local_forward (x y : OverviewNodeGroup) (h : groupLess x y = true) :
    y.isLocal = true → x.isLocal = true := by
  intro hy
  by_cases heq : x.isLocal = y.isLocal
  · rw [heq]; exact hy
  · unfold groupLess at h
    rw [if_neg (by simpa using heq)] at h
    exact h

theorem groupLess_local_backward (x y : OverviewNodeGroup) (h : groupLess x y = false) :
    x.isLocal = true → y.isLocal = true := by
  intro hx
  by_cases heq : x.isLocal = y.isLocal
  · rw [← heq]; exact hx
  · unfold groupLess at h
    rw [if_neg (by simpa using heq)] at h
    rw [hx] at h
    cases h

theorem insertLe_pairwise_local (x : OverviewNodeGroup) (l : List OverviewNodeGroup)
    (hl : l.Pairwise (fun a b => b.isLocal = true → a.isLocal = true)) :
    (insertLe (fun a b => !(groupLess b a)) x l).Pairwise
      (fun a b => b.isLocal = true → a.isLocal = true) := by
  induction l with
  | nil => simp [insertLe]
  | cons y ys ih =>
      simp only [insertLe]
      obtain ⟨hy, hys⟩ := List.pairwise_cons.mp hl
      split_ifs with hle
      · have hgl : groupLess x y = false := by simpa using hle
        refine List.pairwise_cons.mpr ⟨?_, ih hys⟩
        intro z hz
        rcases List.mem_cons.mp ((insertLe_perm _ x ys).mem_iff.mp hz) with hz | hz
        · rw [hz]
          exact groupLess_local_backward x y hgl
        · exact hy z hz
      · have hgl : groupLess x y = true := by simpa using hle
        refine List.pairwise_cons.mpr ⟨?_, hl⟩
        intro z hz
        rcases List.mem_cons.mp hz with hz | hz
        · rw [hz]
          exact groupLess_local_forward x y hgl
        · intro hzl
          exact groupLess_local_forward x y hgl (hy z hz hzl)

theorem sortGroups_local_first (gs : List OverviewNodeGroup) :
    (sortGroups gs).Pairwise (fun a b => b.isLocal = true → a.isLocal = true) := by
  unfold sortGroups goSortBy
  suffices h : ∀ (l acc : List OverviewNodeGroup),
      acc.Pairwise (fun a b => b.isLocal = true → a.isLocal = true) →
      (l.foldl (fun acc x => insertLe (fun a b => !(groupLess b a)) x acc) acc).Pairwise
        (fun a b => b.isLocal = true → a.isLocal = true) by
    exact h gs [] (by simp)
  intro l
  induction l with
  | nil => intro acc h; exact h
  | cons x xs ih =>
      intro acc h
      rw [List.foldl_cons]
      exact ih _ (insertLe_pairwise_local x acc h)

/-- C9: `pickServicesRoundRobin` selects entities round-robin across the node
groups: for a positive limit the result holds exactly `min limit total`
entries; for a non-positive limit it is a permutation of all entries; whenever
the limit covers every non-empty group (or is non-positive), each non-empty
group's first entry appears in the result; and `buildServiceGroups`'s sort
always places local groups before peer groups. -/
theorem C9_round_robin (groups : List OverviewNodeGroup) (limit : Int) :
    (0 < limit →
      (pickServicesRoundRobin groups limit).length =
        min limit.toNat (totalLen (groups.map OverviewNodeGroup.services))) ∧
    (limit ≤ 0 →
      (pickServicesRoundRobin groups limit).Perm
        (groups.map OverviewNodeGroup.services).join) ∧
    (((nonEmptyGroups groups : Int) ≤ limit ∨ limit ≤ 0) →
      ∀ g ∈ groups, g.services ≠ [] →
        ∃ x, g.services.head? = some x ∧ x ∈ pickServicesRoundRobin groups limit) ∧
    (∀ gs : List OverviewNodeGroup,
      (sortGroups gs).Pairwise (fun a b => b.isLocal = true → a.isLocal = true)) := by
  refine ⟨?_, ?_, ?_, sortGroups_local_first⟩
  · intro hpos
    by_cases ht : totalLen (groups.map OverviewNodeGroup.services) = 0
    · simp only [pickServicesRoundRobin]
      rw [if_pos ht, ht]
      simp
    · simp only [pickServicesRoundRobin]
      rw [if_neg ht]
      rw [rrLoop_length (pickLimit (totalLen (groups.map OverviewNodeGroup.services)) limit)
        (pickLimit (totalLen (groups.map OverviewNodeGroup.services)) limit)
        (groups.map OverviewNodeGroup.services) [] (by simp) (by simp)]
      simp only [List.length_nil, Nat.zero_add]
      unfold pickLimit
      split_ifs with hc
      · rcases hc with hc | hc
        · omega
        · omega
      · rfl
  · intro hneg
    by_cases ht : totalLen (groups.map OverviewNodeGroup.services) = 0
    · simp only [pickServicesRoundRobin]
      rw [if_pos ht]
      have hj : (groups.map OverviewNodeGroup.services).join = [] := by
        rw [← List.length_eq_zero, ← totalLen_eq_join_length]
        exact ht
      rw [hj]
    · simp only [pickServicesRoundRobin]
      rw [if_neg ht]
      have hpl : pickLimit (totalLen (groups.map OverviewNodeGroup.services)) limit =
          totalLen (groups.map OverviewNodeGroup.services) := by
        unfold pickLimit
        rw [if_pos (Or.inl hneg)]
      rw [hpl]
      obtain ⟨gs2, hp⟩ := rrLoop_perm (totalLen (groups.map OverviewNodeGroup.services))
        (totalLen (groups.map OverviewNodeGroup.services))
        (groups.map OverviewNodeGroup.services) []
      have hlen := rrLoop_length (totalLen (groups.map OverviewNodeGroup.services))
        (totalLen (groups.map OverviewNodeGroup.services))
        (groups.map OverviewNodeGroup.services) [] (by simp) (by simp)
      simp only [List.length_nil, Nat.zero_add] at hlen
      have hple := hp.length_eq
      simp only [List.length_append, List.nil_append] at hple
      have hjoin := totalLen_eq_join_length (groups.map OverviewNodeGroup.services)
      have hgs2 : gs2.join = [] := by
        rw [← List.length_eq_zero]
        omega
      rw [hgs2] at hp
      simp only [List.append_nil, List.nil_append] at hp
      exact hp
  · intro hcap g hg hne
    have hmemgs : g.services ∈ groups.map OverviewNodeGroup.services :=
      List.mem_map_of_mem _ hg
    obtain ⟨x0, hx0⟩ := List.exists_mem_of_ne_nil g.services hne
    have hx0j : x0 ∈ (groups.map OverviewNodeGroup.services).join :=
      List.mem_join.mpr ⟨g.services, hmemgs, hx0⟩
    have ht : totalLen (groups.map OverviewNodeGroup.services) ≠ 0 := by
      rw [totalLen_eq_join_length]
      intro h0
      rw [List.length_eq_zero] at h0
      rw [h0] at hx0j
      exact absurd hx0j (List.not_mem_nil x0)
    have hNE : nonEmptyGroups groups =
        (groups.map OverviewNodeGroup.services).countP (fun g => !g.isEmpty) := rfl
    have hcnt := countNE_le_totalLen (groups.map OverviewNodeGroup.services)
    have hcle : nonEmptyGroups groups ≤
        pickLimit (totalLen (groups.map OverviewNodeGroup.services)) limit := by
      unfold pickLimit
      split_ifs with hc
      · rw [hNE]
        exact hcnt
      · push_neg at hc
        rcases hcap with h | h
        · omega
        · omega
    have hplpos : 1 ≤ pickLimit (totalLen (groups.map OverviewNodeGroup.services)) limit := by
      unfold pickLimit
      split_ifs with hc
      · omega
      · push_neg at hc
        omega
    simp only [pickServicesRoundRobin]
    rw [if_neg ht]
    obtain ⟨f, hf⟩ : ∃ f, pickLimit (totalLen (groups.map OverviewNodeGroup.services)) limit
        = f + 1 :=
      ⟨pickLimit (totalLen (groups.map OverviewNodeGroup.services)) limit - 1, by omega⟩
    rw [hf]
    have hanytrue : (sweepOnce (f + 1) (groups.map OverviewNodeGroup.services) []).2.2 = true := by
      rw [sweepOnce_prog]
      rw [List.any_eq_true]
      refine ⟨g.services, hmemgs, ?_⟩
      cases hs : g.services with
      | nil => exact absurd hs hne
      | cons a as => simp
    have hstep : rrLoop (f + 1) (f + 1) (groups.map OverviewNodeGroup.services) [] =
        rrLoop f (f + 1) (sweepOnce (f + 1) (groups.map OverviewNodeGroup.services) []).1
          (sweepOnce (f + 1) (groups.map OverviewNodeGroup.services) []).2.1 := by
      simp only [rrLoop]
      rw [if_neg (by simp only [List.length_nil]; omega :
        ¬ (f + 1 ≤ ([] : List OverviewServiceEntry).length)), if_pos hanytrue]
    rw [hstep]
    have hcount : ([] : List OverviewServiceEntry).length +
        (groups.map OverviewNodeGroup.services).countP (fun g => !g.isEmpty) ≤ f + 1 := by
      simp only [List.length_nil, Nat.zero_add]
      rw [← hNE]
      omega
    obtain ⟨x, hhd, hxmem⟩ := sweepOnce_heads (f + 1) (groups.map OverviewNodeGroup.services) []
      hcount g.services hmemgs hne
    obtain ⟨t, htail⟩ := rrLoop_prefix (f + 1) f
      (sweepOnce (f + 1) (groups.map OverviewNodeGroup.services) []).1
      (sweepOnce (f + 1) (groups.map OverviewNodeGroup.services) []).2.1
    exact ⟨x, hhd, by rw [htail]; exact List.mem_append_left _ hxmem⟩

def w9e (s : String) : OverviewServiceEntry := ⟨s, s, [], 0, false⟩

def w9g1 : OverviewNodeGroup := ⟨"local", "Local", true, [w9e "a"]⟩

def w9g2 : OverviewNodeGroup := ⟨"p1", "Peer", false, [w9e "b", w9e "c"]⟩

def w9groups : List OverviewNodeGroup := [w9g1, w9g2]

/-- C9 witness: on two groups holding one and two entries, a limit of 2 picks
exactly two entries and includes each group's head; a limit of 0 picks a
permutation of all three entries. -/
theorem C9_round_robin_witness :
    (pickServicesRoundRobin w9groups 2).length =
      min (2 : Int).toNat (totalLen (w9groups.map OverviewNodeGroup.services)) ∧
    (∃ x, w9g1.services.head? = some x ∧ x ∈ pickServicesRoundRobin w9groups 2) ∧
    (∃ x, w9g2.services.head? = some x ∧ x ∈ pickServicesRoundRobin w9groups 2) ∧
    (pickServicesRoundRobin w9groups 0).Perm
      (w9groups.map OverviewNodeGroup.services).join :=
  ⟨(C9_round_robin w9groups 2).1 (by decide),
   (C9_round_robin w9groups 2).2.2.1 (Or.inl (by decide)) w9g1 (List.Mem.head _) (by decide),
   (C9_round_robin w9groups 2).2.2.1 (Or.inl (by decide)) w9g2
     (List.Mem.tail _ (List.Mem.head _)) (by decide),
   (C9_round_robin w9groups 0).2.1 (by decide)⟩

end JobMonitor
